import Mathlib

/-!
# Verification of the `AggMetric` chunked time-series ring buffer

Shallow embedding of `metric_tank`'s `AggMetric` (file `aggmetric.go`): a per-series
circular buffer of fixed-span chunks with ingestion (`Add`), range queries (`Get`),
persistence handoff (`persist`), save-state acknowledgement (`SyncChunkSaveState`),
garbage collection (`GC`) and the startup reshape (`GrowNumChunks`).

Modelling conventions:
* Go `uint32` timestamps and spans are modelled as `Nat`.  The only arithmetic the
  code performs on them is `ts % span`, `ts - ts % span`, `t0 + span`, `t0 - ts`
  (guarded so it never underflows) and `(t0 - ts) / span`; none of these can wrap a
  `uint32` as long as every chunk satisfies `t0 + span < 2^32`, which the invariant
  `Inv` below records, so no `% 2^32` is inserted.
* Go `int` positions are non-negative at every use site that matters (the code
  normalises every decrement with `if pos < 0 { pos += len }` immediately); they are
  modelled as `Nat` with the same normalisation written as a conditional.
* The external collaborators are modelled as event logs carried in the state:
  `store.Add(req)` appends to `storeLog`, the aggregator fan-out appends to
  `aggEvents`, and the counters `chunkCreate`, `chunkClear`, `totalPoints` become
  `chunkCreateCount`, `chunkClearCount`, `totalPointsDeltas`.
* The wall clock (`time.Now()`) is threaded explicitly as a `now : Nat` argument.
* The cluster role oracle `clusterStatus.IsPrimary()` is threaded as a
  `primary : Bool` argument.
* Functions whose Go counterpart can `panic` return `Option`; `none` models the
  abort (and, for the fuel-bounded loops, divergence — unreachable under `Inv`).
* Go loops over ring positions are written as fuel recursion; every loop in the
  source terminates within `len(chunks)` (resp. `numChunks`) steps because the walk
  revisits the anchor position, where its condition is false, so the fuel used at
  each call site (`len` resp. `numChunks + 1`) is never exhausted on the states the
  theorems quantify over.
-/

/-- Sample values.  Go `float64` values are only stored and handed back, never
computed with, so they are modelled by an opaque carrier with decidable equality. -/
abbrev Val := Int

/-- Modelled from the spec: the `Chunk` codec is out of scope of the source
(§2 item 1, §3).  It tracks `t0`, `last_ts`, `last_write`, `num_points`, the two
flags `saving`/`saved`, and its points; `finish()` renders it immutable. -/
structure Chunk where
  T0 : Nat
  LastTs : Nat
  LastWrite : Nat
  NumPoints : Nat
  Points : List (Nat × Val)
  Saving : Bool
  Saved : Bool
  Finished : Bool
deriving Repr, DecidableEq

instance : Inhabited Chunk := ⟨⟨0, 0, 0, 0, [], false, false, false⟩⟩

def NewChunk (t0 : Nat) : Chunk :=
  { T0 := t0, LastTs := 0, LastWrite := 0, NumPoints := 0, Points := []
    Saving := false, Saved := false, Finished := false }

/-- Modelled from the spec: `push(ts, val) → result` (§6); a chunk is immutable
after `finish()` returns (§3), so pushing into a finished chunk is the failure
case; an accepted push records the point and updates `last_ts`, `last_write`
and `num_points` (§3). -/
def Chunk.Push (c : Chunk) (ts : Nat) (v : Val) (now : Nat) : Option Chunk :=
  if c.Finished then none
  else some { c with LastTs := ts, LastWrite := now,
                     NumPoints := c.NumPoints + 1,
                     Points := c.Points ++ [(ts, v)] }

/-- Modelled from the spec: `finish()` seals the chunk; `last_write` is updated
on every mutation including finish (§3). -/
def Chunk.Finish (c : Chunk) (now : Nat) : Chunk :=
  { c with Finished := true, LastWrite := now }

/-- Modelled from the spec: `iter()` exposes the chunk's points (§6). -/
def Chunk.Iter (c : Chunk) : List (Nat × Val) := c.Points

/-- `ChunkWriteRequest{key, chunk, ttl, timestamp}` as built by `persist`. -/
structure ChunkWriteRequest where
  key : String
  chunk : Chunk
  ttl : Nat
  timestamp : Nat
deriving Repr, DecidableEq

/-- The `AggMetric` state.  The final five fields are the event logs standing in
for the external store, the aggregator fan-out and the metric counters. -/
structure AggMetric where
  Key : String
  CurrentChunkPos : Nat
  NumChunks : Nat
  ChunkSpan : Nat
  Chunks : List Chunk
  firstChunkT0 : Nat
  ttl : Nat
  storeLog : List ChunkWriteRequest
  aggEvents : List (Nat × Val)
  chunkCreateCount : Nat
  chunkClearCount : Nat
  totalPointsDeltas : List Int
deriving Repr, DecidableEq

/-- `NewAggMetric` (aggregators are modelled by the `aggEvents` log). -/
def NewAggMetric (key : String) (chunkSpan numChunks ttl : Nat) : AggMetric :=
  { Key := key, CurrentChunkPos := 0, NumChunks := numChunks, ChunkSpan := chunkSpan
    Chunks := [], firstChunkT0 := 0, ttl := ttl
    storeLog := [], aggEvents := [], chunkCreateCount := 0, chunkClearCount := 0
    totalPointsDeltas := [] }

/-- `getChunk(pos)`: `nil` outside `[0, len)`. -/
def AggMetric.getChunk (a : AggMetric) (pos : Nat) : Option Chunk :=
  a.Chunks[pos]?

/-- `GrowNumChunks(numChunks)`, verbatim: the cap is raised *first*, then the
re-layout is skipped whenever `len(chunks)` is below the (already raised) cap. -/
def AggMetric.GrowNumChunks (a : AggMetric) (numChunks : Nat) : AggMetric :=
  let a1 := { a with NumChunks := numChunks }
  if a1.Chunks.length < a1.NumChunks then a1
  else
    let len := a1.Chunks.length
    let start := if a1.CurrentChunkPos = 0 then len - 1 else a1.CurrentChunkPos - 1
    let ordered := (List.range len).map (fun i => a1.Chunks.getD ((start + i) % len) default)
    { a1 with Chunks := ordered, CurrentChunkPos := len - 1 }

/-- Position of the `guess + 1`-style forward step with wrap on `len`. -/
def stepUp (g len : Nat) : Nat := if g + 1 ≥ len then 0 else g + 1

/-- Position of the `guess - 1`-style backward step with wrap on `len` (the Go
`guess--; if guess < 0 { guess += len }`). -/
def stepDown (g len : Nat) : Nat := if g = 0 then len - 1 else g - 1

/-- The forward scan of `getChunkByT0`: advance `guess` with wrap while the chunk
seen is older than the current chunk, returning the position on a `t0` match. -/
def scanNewer (chunks : List Chunk) (currentT0 ts : Nat) : Nat → Nat → Option Nat
  | _, 0 => none
  | guess, fuel+1 =>
    if (chunks.getD guess default).T0 < currentT0 then
      if (chunks.getD (stepUp guess chunks.length) default).T0 = ts then
        some (stepUp guess chunks.length)
      else scanNewer chunks currentT0 ts (stepUp guess chunks.length) fuel
    else none

/-- The backward scan of `getChunkByT0`: retreat `guess` with wrap while the chunk
seen is within `[oldestT0, currentT0)`, returning the position on a `t0` match. -/
def scanOlder (chunks : List Chunk) (oldestT0 currentT0 ts : Nat) : Nat → Nat → Option Nat
  | _, 0 => none
  | guess, fuel+1 =>
    if oldestT0 ≤ (chunks.getD guess default).T0 ∧ (chunks.getD guess default).T0 < currentT0 then
      if (chunks.getD (stepDown guess chunks.length) default).T0 = ts then
        some (stepDown guess chunks.length)
      else scanOlder chunks oldestT0 currentT0 ts (stepDown guess chunks.length) fuel
    else none

/-- The Go oldest-position computation `cp + 1` wrapped on `len`. -/
def oldestPosOf (cp len : Nat) : Nat := if cp + 1 ≥ len then 0 else cp + 1

/-- The initial guess of `getChunkByT0`: the oldest slot when `chunksAgo`
reaches past the ring, else `cp - chunksAgo` normalised into `[0, len)`. -/
def guessOf (cp len chunksAgo : Nat) : Nat :=
  if chunksAgo ≥ len - 1 then oldestPosOf cp len
  else if cp < chunksAgo then cp + len - chunksAgo
  else cp - chunksAgo

/-- `getChunkByT0(ts)`, returning the ring *position* of the matching chunk
(the Go function returns the pointer; a position is the value analogue).  The
Go locals `currentT0`, `chunksAgo`, `oldestPos` and `guess` are written out
via `guessOf`/`oldestPosOf`. -/
def AggMetric.getChunkByT0 (a : AggMetric) (ts : Nat) : Option Nat :=
  if a.Chunks.length = 0 then none
  else if ts = (a.Chunks.getD a.CurrentChunkPos default).T0 then some a.CurrentChunkPos
  else if (a.Chunks.getD a.CurrentChunkPos default).T0 < ts then none
  else if a.Chunks.length = 1 then none
  else if (a.Chunks.getD (guessOf a.CurrentChunkPos a.Chunks.length
      (((a.Chunks.getD a.CurrentChunkPos default).T0 - ts) / a.ChunkSpan)) default).T0 = ts then
    some (guessOf a.CurrentChunkPos a.Chunks.length
      (((a.Chunks.getD a.CurrentChunkPos default).T0 - ts) / a.ChunkSpan))
  else if (a.Chunks.getD (guessOf a.CurrentChunkPos a.Chunks.length
      (((a.Chunks.getD a.CurrentChunkPos default).T0 - ts) / a.ChunkSpan)) default).T0 < ts then
    scanNewer a.Chunks (a.Chunks.getD a.CurrentChunkPos default).T0 ts
      (guessOf a.CurrentChunkPos a.Chunks.length
        (((a.Chunks.getD a.CurrentChunkPos default).T0 - ts) / a.ChunkSpan))
      a.Chunks.length
  else
    scanOlder a.Chunks
      (a.Chunks.getD (oldestPosOf a.CurrentChunkPos a.Chunks.length) default).T0
      (a.Chunks.getD a.CurrentChunkPos default).T0 ts
      (guessOf a.CurrentChunkPos a.Chunks.length
        (((a.Chunks.getD a.CurrentChunkPos default).T0 - ts) / a.ChunkSpan))
      a.Chunks.length

/-- `SyncChunkSaveState(ts)`: mark the chunk found by `t0` as saved. -/
def AggMetric.SyncChunkSaveState (a : AggMetric) (ts : Nat) : AggMetric :=
  match a.getChunkByT0 ts with
  | none => a
  | some p =>
    { a with Chunks := a.Chunks.set p { a.Chunks.getD p default with Saved := true } }

/-- The backward walk of `persist`: collect (in walk order, newest first) the
positions of the previous chunks with `t0 < curT0` that are neither saved nor
saving, stopping at the first chunk failing that condition. -/
def collectPending (chunks : List Chunk) (curT0 : Nat) : Nat → Nat → List Nat
  | _, 0 => []
  | prevPos, fuel+1 =>
    let c := chunks.getD prevPos default
    if c.T0 < curT0 ∧ c.Saved = false ∧ c.Saving = false then
      prevPos :: collectPending chunks curT0
        (if prevPos = 0 then chunks.length - 1 else prevPos - 1) fuel
    else []

/-- One store submission: append the `ChunkWriteRequest` for position `p` to the
store log, then set `Saving` on that slot (the request snapshots the chunk as it
is handed over, before its own `Saving` flag is raised, mirroring the order of
`store.Add` and the flag assignment). -/
def submitOne (now : Nat) (st : AggMetric) (p : Nat) : AggMetric :=
  { st with
    storeLog := st.storeLog ++
      [{ key := st.Key, chunk := st.Chunks.getD p default, ttl := st.ttl, timestamp := now }]
    Chunks := st.Chunks.set p { st.Chunks.getD p default with Saving := true } }

/-- The ring after `persist` finished the chunk at `pos` (the Go code mutates
the chunk in place through the slot's pointer before the primary check). -/
def finishChunksAt (a : AggMetric) (pos now : Nat) : List Chunk :=
  a.Chunks.set pos ((a.Chunks.getD pos default).Finish now)

/-- `persist(pos)`: finish the chunk at `pos`; if primary, walk backward
collecting unsaved older chunks and submit `pending` last-to-first (oldest
first), raising `Saving` on each submitted slot. -/
def AggMetric.persist (a : AggMetric) (pos : Nat) (now : Nat) (primary : Bool) : AggMetric :=
  if primary = false then { a with Chunks := finishChunksAt a pos now }
  else
    ((collectPending (finishChunksAt a pos now) ((a.Chunks.getD pos default).Finish now).T0
        (if pos = 0 then (finishChunksAt a pos now).length - 1 else pos - 1)
        (finishChunksAt a pos now).length).reverse ++ [pos]).foldl (submitOne now)
      { a with Chunks := finishChunksAt a pos now }

/-- The aggregator fan-out `addAggregators(ts, val)`, modelled as the event log
of samples handed to the aggregators. -/
def AggMetric.addAggregators (a : AggMetric) (ts : Nat) (v : Val) : AggMetric :=
  { a with aggEvents := a.aggEvents ++ [(ts, v)] }

/-- `Add(ts, val)`.  `none` models the fatal panic when a push into a freshly
created chunk fails.  Rejected samples return the state unchanged. -/
def AggMetric.Add (a : AggMetric) (ts : Nat) (v : Val) (now : Nat) (primary : Bool) :
    Option AggMetric :=
  let t0 := ts - ts % a.ChunkSpan
  match a.getChunk a.CurrentChunkPos with
  | none =>
    let a1 := { a with chunkCreateCount := a.chunkCreateCount + 1
                       Chunks := a.Chunks ++ [NewChunk t0]
                       firstChunkT0 := t0 }
    match (a1.Chunks.getD 0 default).Push ts v now with
    | none => none
    | some c =>
      some (AggMetric.addAggregators { a1 with Chunks := a1.Chunks.set 0 c } ts v)
  | some currentChunk =>
    if t0 = currentChunk.T0 then
      if currentChunk.Saved then some a
      else
        match (a.Chunks.getD a.CurrentChunkPos default).Push ts v now with
        | none => some a
        | some c =>
          some (AggMetric.addAggregators
            { a with Chunks := a.Chunks.set a.CurrentChunkPos c } ts v)
    else if t0 < currentChunk.T0 then some a
    else
      let a1 := a.persist a.CurrentChunkPos now primary
      let newPos := if a1.CurrentChunkPos + 1 ≥ a1.NumChunks then 0 else a1.CurrentChunkPos + 1
      let a2 := { a1 with CurrentChunkPos := newPos
                          chunkCreateCount := a1.chunkCreateCount + 1 }
      if a2.Chunks.length < a2.NumChunks then
        let a3 := { a2 with Chunks := a2.Chunks ++ [NewChunk t0] }
        match (a3.Chunks.getD a3.CurrentChunkPos default).Push ts v now with
        | none => none
        | some c =>
          some (AggMetric.addAggregators
            { a3 with Chunks := a3.Chunks.set a3.CurrentChunkPos c } ts v)
      else
        let old := a2.Chunks.getD a2.CurrentChunkPos default
        let a3 := { a2 with chunkClearCount := a2.chunkClearCount + 1
                            totalPointsDeltas := a2.totalPointsDeltas ++ [-(old.NumPoints : Int)]
                            Chunks := a2.Chunks.set a2.CurrentChunkPos (NewChunk t0) }
        match (a3.Chunks.getD a3.CurrentChunkPos default).Push ts v now with
        | none => none
        | some c =>
          some (AggMetric.addAggregators
            { a3 with Chunks := a3.Chunks.set a3.CurrentChunkPos c } ts v)

/-- `math.MaxInt32`. -/
def maxInt32 : Nat := 2147483647

/-- Result of a position-walking loop in `Get`. -/
inductive WalkOut where
  | found (p : Nat)
  | nilChunk
  | fuelOut
deriving Repr, DecidableEq

/-- The oldest-advance loop of `Get`: move forward (wrapping on `len`) while
`from ≥ t0 + span`; `nilChunk` mirrors the logged early return. -/
def advanceOldest (chunks : List Chunk) (span frm : Nat) : Nat → Nat → WalkOut
  | _, 0 => .fuelOut
  | p, fuel+1 =>
    match chunks[p]? with
    | none => .nilChunk
    | some c =>
      if c.T0 + span ≤ frm then
        advanceOldest chunks span frm (if p + 1 ≥ chunks.length then 0 else p + 1) fuel
      else .found p

/-- The newest-retreat loop of `Get`: move backward (wrapping on `len`) while
`to ≤ t0`. -/
def walkNewest (chunks : List Chunk) (toTs : Nat) : Nat → Nat → WalkOut
  | _, 0 => .fuelOut
  | p, fuel+1 =>
    match chunks[p]? with
    | none => .nilChunk
    | some c =>
      if toTs ≤ c.T0 then
        walkNewest chunks toTs (if p = 0 then chunks.length - 1 else p - 1) fuel
      else .found p

/-- The emit loop of `Get`: iterators from `p` up to `stopPos`, wrapping on
`numChunks` (the configured capacity, not the logical length).  `none` models
the nil dereference panic and fuel exhaustion. -/
def emitIters (chunks : List Chunk) (numChunks stopPos : Nat) :
    Nat → Nat → Option (List (List (Nat × Val)))
  | _, 0 => none
  | p, fuel+1 =>
    match chunks[p]? with
    | none => none
    | some c =>
      if p = stopPos then some [c.Iter]
      else
        match emitIters chunks numChunks stopPos (if p + 1 ≥ numChunks then 0 else p + 1) fuel with
        | none => none
        | some rest => some (c.Iter :: rest)

/-- The initial oldest position of `Get`: `current_pos + 1` wrapped on the
logical length. -/
def AggMetric.oldestPos0 (a : AggMetric) : Nat :=
  if a.CurrentChunkPos + 1 ≥ a.Chunks.length then 0 else a.CurrentChunkPos + 1

/-- The leading-partial mask of `Get`: on a secondary, when the oldest chunk is
the very first chunk of the series (`t0 == firstChunkT0`), skip one position
forward (wrapping on the logical length). -/
def AggMetric.maskedOldestPos (a : AggMetric) (primary : Bool) : Nat :=
  if primary = false ∧ (a.Chunks.getD a.oldestPos0 default).T0 = a.firstChunkT0 then
    if a.oldestPos0 + 1 ≥ a.Chunks.length then 0 else a.oldestPos0 + 1
  else a.oldestPos0

/-- `Get(from, to)`.  Returns `none` for the `from ≥ to` panic, the emit-loop nil
dereference, and loop divergence (fuel exhaustion); otherwise
`some (mem_start, iters)`. -/
def AggMetric.Get (a : AggMetric) (frm toTs : Nat) (primary : Bool) :
    Option (Nat × List (List (Nat × Val))) :=
  if toTs ≤ frm then none
  else
    match a.getChunk a.CurrentChunkPos with
    | none => some (maxInt32, [])
    | some newestChunk =>
      if newestChunk.T0 + a.ChunkSpan ≤ frm then some (maxInt32, [])
      else
        match a.getChunk a.oldestPos0 with
        | none => some (maxInt32, [])
        | some _ =>
          match a.getChunk (a.maskedOldestPos primary) with
          | none => some (maxInt32, [])
          | some oldestChunk =>
            if toTs ≤ oldestChunk.T0 then some (oldestChunk.T0, [])
            else
              match advanceOldest a.Chunks a.ChunkSpan frm (a.maskedOldestPos primary)
                  a.Chunks.length with
              | .nilChunk => some (toTs, [])
              | .fuelOut => none
              | .found op =>
                match walkNewest a.Chunks toTs a.CurrentChunkPos a.Chunks.length with
                | .nilChunk => some (toTs, [])
                | .fuelOut => none
                | .found np =>
                  match emitIters a.Chunks a.NumChunks np op (a.NumChunks + 1) with
                  | none => none
                  | some iters => some ((a.Chunks.getD op default).T0, iters)

/-- `GC(chunkMinTs, metricMinTs)`: returns the drop recommendation together with
the (possibly persisted) state. -/
def AggMetric.GC (a : AggMetric) (chunkMinTs metricMinTs now : Nat) (primary : Bool) :
    Bool × AggMetric :=
  match a.getChunk a.CurrentChunkPos with
  | none => (false, a)
  | some currentChunk =>
    if currentChunk.LastWrite < chunkMinTs then
      if currentChunk.Saved = true ∧ currentChunk.LastWrite < metricMinTs then (true, a)
      else (false, a.persist a.CurrentChunkPos now primary)
    else (false, a)

/-- The chunk `t0` stored at ring position `p` (0 for an absent slot). -/
def T0at (a : AggMetric) (p : Nat) : Nat := (a.Chunks.getD p default).T0

/-- Logical-to-physical position translation: logical index 0 is the oldest
slot `(current_pos + 1) mod len`, logical index `len - 1` is `current_pos`.
During warm-up (`current_pos + 1 = len`) this is the identity. -/
def logicalIdx (a : AggMetric) (i : Nat) : Nat :=
  (a.CurrentChunkPos + 1 + i) % a.Chunks.length

/-- The sequential-`t0` ring invariant: walking the ring from the oldest slot to
`current_pos`, the chunk `t0`s strictly increase. -/
def RingSequential (a : AggMetric) : Prop :=
  ∀ j, j < a.Chunks.length → ∀ i, i < j → T0at a (logicalIdx a i) < T0at a (logicalIdx a j)

instance (a : AggMetric) : Decidable (RingSequential a) := by
  unfold RingSequential; infer_instance

/-- The predicate of claim C9, exactly as stated: whenever the chunk list is
non-empty, `current_pos` is in bounds and the length does not exceed the cap. -/
def PosInBounds (a : AggMetric) : Prop :=
  a.Chunks.length ≠ 0 → (a.CurrentChunkPos < a.Chunks.length ∧ a.Chunks.length ≤ a.NumChunks)

instance (a : AggMetric) : Decidable (PosInBounds a) := by
  unfold PosInBounds; infer_instance

/-- The strengthened ring well-formedness predicate: additionally pins
`current_pos = 0` while the buffer is empty and requires a positive cap. -/
def RingWF (a : AggMetric) : Prop :=
  (a.Chunks.length = 0 → a.CurrentChunkPos = 0) ∧
  (a.Chunks.length ≠ 0 → a.CurrentChunkPos < a.Chunks.length) ∧
  a.Chunks.length ≤ a.NumChunks ∧ 1 ≤ a.NumChunks

instance (a : AggMetric) : Decidable (RingWF a) := by
  unfold RingWF; infer_instance

/-- The full state invariant maintained by ingestion from an empty buffer:
well-formed positions, a positive span, the warm-up/full ring shape, and
sequential `t0`s. -/
def AggInv (a : AggMetric) : Prop :=
  (a.Chunks.length = 0 → a.CurrentChunkPos = 0) ∧
  (a.Chunks.length ≠ 0 → a.CurrentChunkPos < a.Chunks.length) ∧
  a.Chunks.length ≤ a.NumChunks ∧
  1 ≤ a.NumChunks ∧
  0 < a.ChunkSpan ∧
  (a.Chunks.length = a.NumChunks ∨ a.CurrentChunkPos + 1 = a.Chunks.length ∨
    a.Chunks.length = 0) ∧
  RingSequential a

instance (a : AggMetric) : Decidable (AggInv a) := by
  unfold AggInv; infer_instance

/-- The position visited by the `j`-th step of a backward ring walk starting
just before `pos`. -/
def backPos (pos len j : Nat) : Nat := (pos + len - 1 - j) % len

/-- The positions visited by the first `k` steps of the backward walk. -/
def backPosList (pos len k : Nat) : List Nat := (List.range k).map (backPos pos len)

/-- The catch-up condition of `persist`: strictly older and neither saved nor
saving. -/
def pendCond (t0 : Nat) (c : Chunk) : Prop :=
  c.T0 < t0 ∧ c.Saved = false ∧ c.Saving = false

instance (t0 : Nat) (c : Chunk) : Decidable (pendCond t0 c) := by
  unfold pendCond; infer_instance

/-- The `ChunkWriteRequest` that `persist` hands the store for position `p` of
ring `chs`. -/
def reqFor (a : AggMetric) (now : Nat) (chs : List Chunk) (p : Nat) : ChunkWriteRequest :=
  { key := a.Key, chunk := chs.getD p default, ttl := a.ttl, timestamp := now }

/-! ### Concrete states used by the claim-specific evaluations -/

/-- Scenario: `chunk_span=60, num_chunks=3`, a single sample `add(100, 1.0)` on a
secondary node. -/
def stateC1 : Option AggMetric := (NewAggMetric "m" 60 3 0).Add 100 1 5 false

/-- Scenario: `num_chunks=3`, filled and wrapped so that the ring holds
`t0`s `[180, 60, 120]` with `current_pos = 0` (adds at 10, 70, 130, 190). -/
def wrappedRing3 : Option AggMetric :=
  ((((NewAggMetric "m" 60 3 0).Add 10 1 1 true).bind (fun s => s.Add 70 2 2 true)).bind
    (fun s => s.Add 130 3 3 true)).bind (fun s => s.Add 190 4 4 true)

/-- Scenario: on a secondary, `add(100, 1.0)` and then a GC pass that persists
the stale current chunk (finishing it) without advancing the ring. -/
def stateC4 : Option AggMetric :=
  ((NewAggMetric "k" 60 3 0).Add 100 1 5 false).map (fun s => (s.GC 6 0 7 false).2)

/-- Scenario: on a secondary, `add(100, 1.0)` then `add(160, 2.0)`: the chunk
with `t0=60` (the partial leading chunk) holds the first sample. -/
def stateC6 : Option AggMetric :=
  ((NewAggMetric "m" 60 3 0).Add 100 1 5 false).bind (fun s => s.Add 160 2 6 false)

/-- An empty buffer with `current_pos = 1`: satisfies `PosInBounds` vacuously. -/
def stateC9 : AggMetric :=
  { Key := "m", CurrentChunkPos := 1, NumChunks := 3, ChunkSpan := 60, Chunks := []
    firstChunkT0 := 0, ttl := 0, storeLog := [], aggEvents := [], chunkCreateCount := 0
    chunkClearCount := 0, totalPointsDeltas := [] }

/-- A one-chunk buffer used to witness the hypothesis-bearing theorems. -/
def oneChunkState (c : Chunk) : AggMetric :=
  { Key := "w", CurrentChunkPos := 0, NumChunks := 3, ChunkSpan := 60, Chunks := [c]
    firstChunkT0 := c.T0, ttl := 0, storeLog := [], aggEvents := [], chunkCreateCount := 1
    chunkClearCount := 0, totalPointsDeltas := [] }

/-- The chunk produced by pushing the first point `(ts, v)` into a freshly
created chunk at `t0`. -/
def freshChunk (t0 ts : Nat) (v : Val) (now : Nat) : Chunk :=
  { T0 := t0, LastTs := ts, LastWrite := now, NumPoints := 1, Points := [(ts, v)]
    Saving := false, Saved := false, Finished := false }

/-- The state produced by the rollover branch of `Add` when the ring still has
room (warm-up): after persisting the current chunk the ring is extended with a
fresh chunk holding the new sample and the position advances to it. -/
def rollAppendState (a : AggMetric) (ts : Nat) (v : Val) (now : Nat) (pr : Bool) : AggMetric :=
  { a.persist a.CurrentChunkPos now pr with
    CurrentChunkPos := a.CurrentChunkPos + 1
    chunkCreateCount := (a.persist a.CurrentChunkPos now pr).chunkCreateCount + 1
    Chunks := ((a.persist a.CurrentChunkPos now pr).Chunks ++
        [NewChunk (ts - ts % a.ChunkSpan)]).set (a.CurrentChunkPos + 1)
      (freshChunk (ts - ts % a.ChunkSpan) ts v now)
    aggEvents := (a.persist a.CurrentChunkPos now pr).aggEvents ++ [(ts, v)] }

/-- The state produced by the rollover branch of `Add` when the ring is full:
after persisting the current chunk, the slot after it (wrapping) is overwritten
with a fresh chunk holding the new sample and the position advances to it. -/
def rollOverwriteState (a : AggMetric) (ts : Nat) (v : Val) (now : Nat) (pr : Bool) : AggMetric :=
  { a.persist a.CurrentChunkPos now pr with
    CurrentChunkPos := (a.CurrentChunkPos + 1) % a.Chunks.length
    chunkCreateCount := (a.persist a.CurrentChunkPos now pr).chunkCreateCount + 1
    chunkClearCount := (a.persist a.CurrentChunkPos now pr).chunkClearCount + 1
    totalPointsDeltas := (a.persist a.CurrentChunkPos now pr).totalPointsDeltas ++
      [-((((a.persist a.CurrentChunkPos now pr).Chunks.getD
          ((a.CurrentChunkPos + 1) % a.Chunks.length) default).NumPoints : Int))]
    Chunks := (((a.persist a.CurrentChunkPos now pr).Chunks.set
        ((a.CurrentChunkPos + 1) % a.Chunks.length)
        (NewChunk (ts - ts % a.ChunkSpan))).set
      ((a.CurrentChunkPos + 1) % a.Chunks.length)
      (freshChunk (ts - ts % a.ChunkSpan) ts v now))
    aggEvents := (a.persist a.CurrentChunkPos now pr).aggEvents ++ [(ts, v)] }

/-- The spacing invariant the lookup's guess arithmetic relies on (the Go
comment: "assuming that chunks are sequential"): walking the ring in logical
order, consecutive chunk `t0`s are at least one span apart. -/
def SpanSequential (a : AggMetric) : Prop :=
  ∀ i, i < a.Chunks.length - 1 →
    T0at a (logicalIdx a i) + a.ChunkSpan ≤ T0at a (logicalIdx a (i + 1))

instance (a : AggMetric) : Decidable (SpanSequential a) := by
  unfold SpanSequential; infer_instance

/-- A warmed-up two-chunk buffer: the non-current chunk at `t0 = 60` holds
`(100, 1)` and the current chunk at `t0 = 120` holds `(160, 2)`. -/
def twoChunkState : AggMetric :=
  { Key := "m", CurrentChunkPos := 1, NumChunks := 3, ChunkSpan := 60
    Chunks := [freshChunk 60 100 1 5, freshChunk 120 160 2 6]
    firstChunkT0 := 60, ttl := 0, storeLog := [], aggEvents := []
    chunkCreateCount := 2, chunkClearCount := 0, totalPointsDeltas := [] }

/-! ## Basic list bridging lemmas -/

theorem getD_eq_getElem?_some {α : Type} [Inhabited α] (l : List α) (p : Nat)
    (h : p < l.length) : l[p]? = some (l.getD p default) := by
  simp [List.getD_eq_getElem?_getD, List.getElem?_eq_getElem h]

theorem set_of_length_le {α : Type} (l : List α) (p : Nat) (c : α)
    (h : l.length ≤ p) : l.set p c = l := by
  induction l generalizing p with
  | nil => simp
  | cons x t ih =>
    cases p with
    | zero => simp at h
    | succ q => simp only [List.set]; rw [ih q (by simpa using h)]

theorem set_getD_self {α : Type} [Inhabited α] (l : List α) (p : Nat) :
    l.set p (l.getD p default) = l := by
  induction l generalizing p with
  | nil => simp
  | cons x t ih =>
    cases p with
    | zero => simp [List.getD]
    | succ q => simp only [List.set, List.getD_cons_succ]; rw [ih q]

theorem getD_set_self {α : Type} [Inhabited α] (l : List α) (p : Nat) (c : α)
    (h : p < l.length) : (l.set p c).getD p default = c := by
  simp [List.getD_eq_getElem?_getD, List.getElem?_set_self h]

theorem getD_set_ne {α : Type} [Inhabited α] (l : List α) (p q : Nat) (c : α)
    (h : p ≠ q) : (l.set p c).getD q default = l.getD q default := by
  simp [List.getD_eq_getElem?_getD, List.getElem?_set_ne h]

theorem getD_append_left {α : Type} [Inhabited α] (l l' : List α) (p : Nat)
    (h : p < l.length) : (l ++ l').getD p default = l.getD p default := by
  simp [List.getD_eq_getElem?_getD, List.getElem?_append_left h]

theorem getD_append_right_self {α : Type} [Inhabited α] (l : List α) (c : α) :
    (l ++ [c]).getD l.length default = c := by
  simp [List.getD_eq_getElem?_getD, List.getElem?_append_right (Nat.le_refl _)]

/-! ## Frame lemmas for `persist` -/

theorem submitOne_Key (now : Nat) (st : AggMetric) (p : Nat) :
    (submitOne now st p).Key = st.Key := rfl

theorem foldl_submitOne_frame (now : Nat) (l : List Nat) (st : AggMetric) :
    (l.foldl (submitOne now) st).Key = st.Key ∧
    (l.foldl (submitOne now) st).CurrentChunkPos = st.CurrentChunkPos ∧
    (l.foldl (submitOne now) st).NumChunks = st.NumChunks ∧
    (l.foldl (submitOne now) st).ChunkSpan = st.ChunkSpan ∧
    (l.foldl (submitOne now) st).firstChunkT0 = st.firstChunkT0 ∧
    (l.foldl (submitOne now) st).ttl = st.ttl ∧
    (l.foldl (submitOne now) st).aggEvents = st.aggEvents ∧
    (l.foldl (submitOne now) st).chunkCreateCount = st.chunkCreateCount ∧
    (l.foldl (submitOne now) st).chunkClearCount = st.chunkClearCount ∧
    (l.foldl (submitOne now) st).totalPointsDeltas = st.totalPointsDeltas ∧
    (l.foldl (submitOne now) st).Chunks.length = st.Chunks.length := by
  induction l generalizing st with
  | nil => simp
  | cons q t ih =>
    simpa [List.foldl_cons, submitOne] using ih { st with
      storeLog := st.storeLog ++
        [{ key := st.Key, chunk := st.Chunks.getD q default, ttl := st.ttl, timestamp := now }]
      Chunks := st.Chunks.set q { st.Chunks.getD q default with Saving := true } }

theorem foldl_submitOne_T0map (now : Nat) (l : List Nat) (st : AggMetric) :
    (l.foldl (submitOne now) st).Chunks.map Chunk.T0 = st.Chunks.map Chunk.T0 := by
  induction l generalizing st with
  | nil => rfl
  | cons q t ih =>
    rw [List.foldl_cons, ih]
    show (st.Chunks.set q _).map Chunk.T0 = _
    by_cases hq : q < st.Chunks.length
    · rw [List.map_set]
      have : ((st.Chunks.getD q default : Chunk).T0 : Nat) =
          (st.Chunks.map Chunk.T0).getD q default := by
        simp [List.getD_eq_getElem?_getD, List.getElem?_map, List.getElem?_eq_getElem hq]
      simp only [this]
      have := set_getD_self (st.Chunks.map Chunk.T0) q
      simpa using this
    · rw [set_of_length_le _ _ _ (by omega)]

theorem persist_frame (a : AggMetric) (pos now : Nat) (pr : Bool) :
    (a.persist pos now pr).Key = a.Key ∧
    (a.persist pos now pr).CurrentChunkPos = a.CurrentChunkPos ∧
    (a.persist pos now pr).NumChunks = a.NumChunks ∧
    (a.persist pos now pr).ChunkSpan = a.ChunkSpan ∧
    (a.persist pos now pr).firstChunkT0 = a.firstChunkT0 ∧
    (a.persist pos now pr).ttl = a.ttl ∧
    (a.persist pos now pr).aggEvents = a.aggEvents ∧
    (a.persist pos now pr).chunkCreateCount = a.chunkCreateCount ∧
    (a.persist pos now pr).chunkClearCount = a.chunkClearCount ∧
    (a.persist pos now pr).totalPointsDeltas = a.totalPointsDeltas ∧
    (a.persist pos now pr).Chunks.length = a.Chunks.length := by
  unfold AggMetric.persist
  cases pr with
  | false => simp [finishChunksAt]
  | true =>
    simp only [Bool.true_eq_false, if_false]
    have h := foldl_submitOne_frame now
      ((collectPending (finishChunksAt a pos now) ((a.Chunks.getD pos default).Finish now).T0
          (if pos = 0 then (finishChunksAt a pos now).length - 1 else pos - 1)
          (finishChunksAt a pos now).length).reverse ++ [pos])
      { a with Chunks := finishChunksAt a pos now }
    simpa [finishChunksAt] using h

theorem persist_T0map (a : AggMetric) (pos now : Nat) (pr : Bool) :
    (a.persist pos now pr).Chunks.map Chunk.T0 = a.Chunks.map Chunk.T0 := by
  have hset : (finishChunksAt a pos now).map Chunk.T0 = a.Chunks.map Chunk.T0 := by
    unfold finishChunksAt
    by_cases hq : pos < a.Chunks.length
    · rw [List.map_set]
      have : (((a.Chunks.getD pos default).Finish now).T0 : Nat) =
          (a.Chunks.map Chunk.T0).getD pos default := by
        simp [Chunk.Finish, List.getD_eq_getElem?_getD, List.getElem?_map,
          List.getElem?_eq_getElem hq]
      simp only [this]
      simpa using set_getD_self (a.Chunks.map Chunk.T0) pos
    · rw [set_of_length_le _ _ _ (by omega)]
  unfold AggMetric.persist
  cases pr with
  | false => simpa using hset
  | true =>
    simp only [Bool.true_eq_false, if_false]
    rw [foldl_submitOne_T0map]
    simpa using hset

/-! ## Claim C1 -/

/-- C1: the claim says that on a secondary `Get` never emits an iterator over the
chunk with `t0 = firstChunkT0` and that, with `chunk_span=60, num_chunks=3` and a
single sample at `ts=100`, `Get 90 110` returns `(MaxInt32, [])`.  The code
violates this: with a single chunk the mask's skip wraps around to the same
chunk, so `Get` returns `(60, [[(100, 1)]])` — it serves the partial leading
chunk whose `t0` equals `firstChunkT0 = 60`, contradicting the code's own
comment that a secondary should not serve data from this chunk. -/
theorem C1_secondary_serves_partial_leading_chunk :
    stateC1.map (fun s => s.firstChunkT0) = some 60 ∧
    stateC1.bind (fun s => s.Get 90 110 false) = some (60, [[(100, 1)]]) := by
  constructor
  · rfl
  · rfl

/-! ## Claim C2 -/

/-- C2: the claim says `GrowNumChunks 5` on the full wrapped ring
`[t0=180, t0=60, t0=120]`, `current_pos=0` re-lays the chunks out as
`[60, 120, 180]` with `current_pos=2`.  The code violates this: `NumChunks` is
raised *before* the `len(chunks) < numChunks` comparison, so the re-layout is
skipped (the comment claims the buffer "has never reached the original max
size") and the ring stays `[180, 60, 120]` with `current_pos=0`. -/
theorem C2_grow_after_wrap_skips_relayout :
    wrappedRing3.map (fun s => (s.Chunks.map Chunk.T0, s.CurrentChunkPos, s.NumChunks)) =
      some ([180, 60, 120], 0, 3) ∧
    wrappedRing3.map (fun s =>
        ((s.GrowNumChunks 5).Chunks.map Chunk.T0, (s.GrowNumChunks 5).CurrentChunkPos,
          (s.GrowNumChunks 5).NumChunks)) =
      some ([180, 60, 120], 0, 5) := by
  constructor
  · rfl
  · rfl

/-! ## Claim C4: counterexample -/

/-- C4 counterexample: after a GC pass persisted (and thereby finished) the
still-current chunk on a secondary, a subsequent `add` with `t0 = current.t0`
and `current.Saved = false` is dropped (the state is returned unchanged), even
though neither of the two rejection cases enumerated by the claim holds. -/
theorem C4_counterexample_drop_outside_enumerated_cases :
    stateC4.bind (fun s => s.Add 110 2 8 false) = stateC4 ∧
    stateC4.map (fun s => ((s.Chunks.getD s.CurrentChunkPos default).T0,
        (s.Chunks.getD s.CurrentChunkPos default).Saved,
        (s.Chunks.getD s.CurrentChunkPos default).Finished)) = some (110 - 110 % 60, false, true) ∧
    stateC4 ≠ none := by
  refine ⟨rfl, rfl, ?_⟩
  intro h
  simp [stateC4] at h
  revert h
  decide

/-! ## Claim C6: counterexample -/

/-- C6 counterexample: on a secondary, the sample `(100, 1)` was accepted and its
owning chunk (`t0=60`) is still in the ring, yet `Get 100 101` returns
`(120, [])`: the secondary mask hides the partial leading chunk, so no iterator
contains the point, refuting the round-trip claim as stated (without a primary
qualifier). -/
theorem C6_counterexample_secondary_masks_round_trip :
    stateC6.map (fun s => s.Chunks.map Chunk.Points) = some [[(100, 1)], [(160, 2)]] ∧
    stateC6.bind (fun s => s.Get 100 101 false) = some (120, []) := by
  constructor
  · rfl
  · rfl

/-! ## Claim C9: counterexample -/

/-- C9 counterexample: `PosInBounds` (the predicate exactly as claimed) is *not*
preserved by `Add`: from the empty buffer with `CurrentChunkPos = 1` (which
satisfies the predicate vacuously) a single `Add` creates one chunk while
leaving `CurrentChunkPos = 1 ≥ 1 = len`. -/
theorem C9_counterexample_pos_in_bounds_not_preserved :
    PosInBounds stateC9 ∧
    (stateC9.Add 100 1 5 true).map (fun s => decide (PosInBounds s)) = some false := by
  constructor
  · decide
  · rfl

/-! ## `getChunk` and position bridging lemmas -/

theorem getChunk_eq_some (a : AggMetric) (pos : Nat) (h : pos < a.Chunks.length) :
    a.getChunk pos = some (a.Chunks.getD pos default) :=
  getD_eq_getElem?_some _ _ h

theorem getChunk_eq_none (a : AggMetric) (pos : Nat) (h : a.Chunks.length ≤ pos) :
    a.getChunk pos = none := by
  simp [AggMetric.getChunk, List.getElem?_eq_none h]

theorem oldestPos0_lt (a : AggMetric) (h : a.Chunks.length ≠ 0) :
    a.oldestPos0 < a.Chunks.length := by
  unfold AggMetric.oldestPos0; split <;> omega

theorem maskedOldestPos_lt (a : AggMetric) (pr : Bool) (h : a.Chunks.length ≠ 0) :
    a.maskedOldestPos pr < a.Chunks.length := by
  have h0 := oldestPos0_lt a h
  unfold AggMetric.maskedOldestPos
  split
  · split <;> omega
  · exact h0

/-! ## Claim C5 -/

/-- C5: when `Get` serves no data it returns an empty iterator list, paired with
`MaxInt32` when the buffer is empty or `from` lies at or beyond the end of the
newest chunk, and with the oldest (mask-adjusted) chunk's `t0` when the range
ends at or before that chunk's `t0`. -/
theorem C5_get_no_data (a : AggMetric) (frm toTs : Nat) (pr : Bool) (hft : frm < toTs)
    (hcp : a.Chunks.length ≠ 0 → a.CurrentChunkPos < a.Chunks.length) :
    (a.Chunks.length = 0 → a.Get frm toTs pr = some (maxInt32, [])) ∧
    (a.Chunks.length ≠ 0 →
      (a.Chunks.getD a.CurrentChunkPos default).T0 + a.ChunkSpan ≤ frm →
      a.Get frm toTs pr = some (maxInt32, [])) ∧
    (a.Chunks.length ≠ 0 →
      frm < (a.Chunks.getD a.CurrentChunkPos default).T0 + a.ChunkSpan →
      toTs ≤ (a.Chunks.getD (a.maskedOldestPos pr) default).T0 →
      a.Get frm toTs pr = some ((a.Chunks.getD (a.maskedOldestPos pr) default).T0, [])) := by
  refine ⟨?_, ?_, ?_⟩
  · intro h0
    unfold AggMetric.Get
    rw [if_neg (by omega), getChunk_eq_none a _ (by omega)]
  · intro hne hfar
    unfold AggMetric.Get
    rw [if_neg (by omega), getChunk_eq_some a _ (hcp hne)]
    simp only [if_pos hfar]
  · intro hne hnear hto
    unfold AggMetric.Get
    rw [if_neg (by omega), getChunk_eq_some a _ (hcp hne)]
    simp only [if_neg (by omega : ¬ ((a.Chunks.getD a.CurrentChunkPos default).T0 +
      a.ChunkSpan ≤ frm))]
    rw [getChunk_eq_some a _ (oldestPos0_lt a hne),
      getChunk_eq_some a _ (maskedOldestPos_lt a pr hne)]
    simp only [if_pos hto]

/-- C5 witness: a one-chunk buffer at `t0 = 60`; the query `[10, 30)` ends before
the data, so `Get` returns the oldest chunk's `t0` and no iterators. -/
theorem C5_witness :
    (oneChunkState (NewChunk 60)).Get 10 30 true = some (60, []) :=
  (C5_get_no_data (oneChunkState (NewChunk 60)) 10 30 true (by decide)
    (by decide)).2.2 (by decide) (by decide) (by decide)

/-! ## Claim C7 -/

/-- C7: `GC` returns `true` exactly when the buffer is non-empty, the current
chunk is idle (`last_write < chunk_min_ts`), saved, and stale
(`last_write < metric_min_ts`); it returns `false` on an empty buffer; and when
the current chunk is idle but the drop condition fails it persists the current
position (without advancing the ring) and returns `false`. -/
theorem C7_gc_cases (a : AggMetric) (c m now : Nat) (pr : Bool)
    (hcp : a.Chunks.length ≠ 0 → a.CurrentChunkPos < a.Chunks.length) :
    ((a.GC c m now pr).1 = true ↔
      (a.Chunks.length ≠ 0 ∧ (a.Chunks.getD a.CurrentChunkPos default).LastWrite < c ∧
        (a.Chunks.getD a.CurrentChunkPos default).Saved = true ∧
        (a.Chunks.getD a.CurrentChunkPos default).LastWrite < m)) ∧
    (a.Chunks.length = 0 → a.GC c m now pr = (false, a)) ∧
    (a.Chunks.length ≠ 0 →
      (a.Chunks.getD a.CurrentChunkPos default).LastWrite < c →
      ¬((a.Chunks.getD a.CurrentChunkPos default).Saved = true ∧
        (a.Chunks.getD a.CurrentChunkPos default).LastWrite < m) →
      a.GC c m now pr = (false, a.persist a.CurrentChunkPos now pr) ∧
      (a.persist a.CurrentChunkPos now pr).CurrentChunkPos = a.CurrentChunkPos) := by
  by_cases hlen : a.Chunks.length = 0
  · refine ⟨?_, ?_, ?_⟩
    · unfold AggMetric.GC
      rw [getChunk_eq_none a _ (by omega)]
      simp [hlen]
    · intro _
      unfold AggMetric.GC
      rw [getChunk_eq_none a _ (by omega)]
    · intro hne; exact absurd hlen hne
  · have hgc : a.GC c m now pr =
        (if (a.Chunks.getD a.CurrentChunkPos default).LastWrite < c then
          if (a.Chunks.getD a.CurrentChunkPos default).Saved = true ∧
              (a.Chunks.getD a.CurrentChunkPos default).LastWrite < m then (true, a)
          else (false, a.persist a.CurrentChunkPos now pr)
        else (false, a)) := by
      unfold AggMetric.GC
      rw [getChunk_eq_some a _ (hcp hlen)]
    refine ⟨?_, fun h0 => absurd h0 hlen, ?_⟩
    · rw [hgc]
      by_cases h1 : (a.Chunks.getD a.CurrentChunkPos default).LastWrite < c
      · by_cases h2 : (a.Chunks.getD a.CurrentChunkPos default).Saved = true ∧
            (a.Chunks.getD a.CurrentChunkPos default).LastWrite < m
        · rw [if_pos h1, if_pos h2]
          exact iff_of_true rfl ⟨hlen, h1, h2.1, h2.2⟩
        · rw [if_pos h1, if_neg h2]
          refine iff_of_false (by simp) ?_
          intro hr
          exact h2 ⟨hr.2.2.1, hr.2.2.2⟩
      · rw [if_neg h1]
        refine iff_of_false (by simp) ?_
        intro hr
        exact h1 hr.2.1
    · intro _ h1 h2
      rw [hgc, if_pos h1, if_neg h2]
      exact ⟨rfl, (persist_frame a a.CurrentChunkPos now pr).2.1⟩

/-- C7 witness: a one-chunk buffer whose current chunk is idle, saved and stale;
`GC` recommends dropping the series. -/
theorem C7_witness :
    ((oneChunkState { T0 := 60, LastTs := 70, LastWrite := 5, NumPoints := 1, Points := [(70, 1)], Saving := false, Saved := true, Finished := true }).GC 10 10 3 true).1 = true :=
  ((C7_gc_cases (oneChunkState { T0 := 60, LastTs := 70, LastWrite := 5, NumPoints := 1, Points := [(70, 1)], Saving := false, Saved := true, Finished := true })
    10 10 3 true (by decide)).1).mpr (by decide)

/-! ## Claim C8: `SyncChunkSaveState` -/

theorem T0_getD_of_map_eq (l l' : List Chunk) (h : l.map Chunk.T0 = l'.map Chunk.T0)
    (g : Nat) : (l.getD g default).T0 = (l'.getD g default).T0 := by
  have h1 := List.getD_map l default (n := g) Chunk.T0
  have h2 := List.getD_map l' default (n := g) Chunk.T0
  rw [← h1, ← h2, h]

theorem length_eq_of_T0map_eq (l l' : List Chunk)
    (h : l.map Chunk.T0 = l'.map Chunk.T0) : l.length = l'.length := by
  simpa using congrArg List.length h

theorem T0map_set_T0_preserving (l : List Chunk) (p : Nat) (c : Chunk)
    (hT0 : c.T0 = (l.getD p default).T0) :
    (l.set p c).map Chunk.T0 = l.map Chunk.T0 := by
  by_cases hp : p < l.length
  · rw [List.map_set, hT0]
    have h1 : ((l.getD p default : Chunk).T0) = (l.map Chunk.T0).getD p default :=
      (List.getD_map l default (n := p) Chunk.T0).symm
    rw [h1, set_getD_self]
  · rw [set_of_length_le _ _ _ (by omega)]

theorem scanNewer_congr (l l' : List Chunk) (h : l.map Chunk.T0 = l'.map Chunk.T0)
    (c t : Nat) : ∀ fuel g, scanNewer l c t g fuel = scanNewer l' c t g fuel
  | 0, _ => rfl
  | fuel+1, g => by
    have hlen : l.length = l'.length := length_eq_of_T0map_eq l l' h
    simp only [scanNewer, hlen, T0_getD_of_map_eq l l' h,
      scanNewer_congr l l' h c t fuel]

theorem scanOlder_congr (l l' : List Chunk) (h : l.map Chunk.T0 = l'.map Chunk.T0)
    (o c t : Nat) : ∀ fuel g, scanOlder l o c t g fuel = scanOlder l' o c t g fuel
  | 0, _ => rfl
  | fuel+1, g => by
    have hlen : l.length = l'.length := length_eq_of_T0map_eq l l' h
    simp only [scanOlder, hlen, T0_getD_of_map_eq l l' h,
      scanOlder_congr l l' h o c t fuel]

theorem getChunkByT0_T0congr (a a' : AggMetric)
    (hch : a'.Chunks.map Chunk.T0 = a.Chunks.map Chunk.T0)
    (hcp : a'.CurrentChunkPos = a.CurrentChunkPos) (hspan : a'.ChunkSpan = a.ChunkSpan)
    (ts : Nat) : a'.getChunkByT0 ts = a.getChunkByT0 ts := by
  have hlen : a'.Chunks.length = a.Chunks.length :=
    length_eq_of_T0map_eq a'.Chunks a.Chunks hch
  simp only [AggMetric.getChunkByT0, hcp, hspan, hlen,
    T0_getD_of_map_eq a'.Chunks a.Chunks hch,
    scanNewer_congr a'.Chunks a.Chunks hch, scanOlder_congr a'.Chunks a.Chunks hch]

theorem stepUp_lt (g len : Nat) (h : len ≠ 0) : stepUp g len < len := by
  unfold stepUp; split <;> omega

theorem stepDown_lt (g len : Nat) (h : len ≠ 0) (hg : g < len) : stepDown g len < len := by
  unfold stepDown; split <;> omega

theorem guessOf_lt (cp len ago : Nat) (hcp : cp < len) : guessOf cp len ago < len := by
  unfold guessOf oldestPosOf
  split
  · split <;> omega
  · split <;> omega

theorem scanNewer_sound (chunks : List Chunk) (c t : Nat) :
    ∀ fuel g p, scanNewer chunks c t g fuel = some p → chunks.length ≠ 0 →
      p < chunks.length ∧ (chunks.getD p default).T0 = t := by
  intro fuel
  induction fuel with
  | zero => intro g p h _; simp [scanNewer] at h
  | succ f ih =>
    intro g p h hne
    unfold scanNewer at h
    by_cases h1 : (chunks.getD g default).T0 < c
    · rw [if_pos h1] at h
      by_cases h2 : (chunks.getD (stepUp g chunks.length) default).T0 = t
      · rw [if_pos h2] at h
        injection h with h
        subst h
        exact ⟨stepUp_lt g chunks.length hne, h2⟩
      · rw [if_neg h2] at h
        exact ih _ p h hne
    · rw [if_neg h1] at h; cases h

theorem scanOlder_sound (chunks : List Chunk) (o c t : Nat) :
    ∀ fuel g p, scanOlder chunks o c t g fuel = some p → chunks.length ≠ 0 →
      g < chunks.length → p < chunks.length ∧ (chunks.getD p default).T0 = t := by
  intro fuel
  induction fuel with
  | zero => intro g p h _ _; simp [scanOlder] at h
  | succ f ih =>
    intro g p h hne hg
    unfold scanOlder at h
    by_cases h1 : o ≤ (chunks.getD g default).T0 ∧ (chunks.getD g default).T0 < c
    · rw [if_pos h1] at h
      by_cases h2 : (chunks.getD (stepDown g chunks.length) default).T0 = t
      · rw [if_pos h2] at h
        injection h with h
        subst h
        exact ⟨stepDown_lt g chunks.length hne hg, h2⟩
      · rw [if_neg h2] at h
        exact ih _ p h hne (stepDown_lt g chunks.length hne hg)
    · rw [if_neg h1] at h; cases h

theorem getChunkByT0_sound (a : AggMetric) (ts : Nat)
    (hcp : a.Chunks.length ≠ 0 → a.CurrentChunkPos < a.Chunks.length) :
    ∀ p, a.getChunkByT0 ts = some p →
      p < a.Chunks.length ∧ (a.Chunks.getD p default).T0 = ts := by
  intro p h
  unfold AggMetric.getChunkByT0 at h
  by_cases h0 : a.Chunks.length = 0
  · rw [if_pos h0] at h; cases h
  · rw [if_neg h0] at h
    by_cases h1 : ts = (a.Chunks.getD a.CurrentChunkPos default).T0
    · rw [if_pos h1] at h
      injection h with h
      subst h
      exact ⟨hcp h0, h1.symm⟩
    · rw [if_neg h1] at h
      by_cases h2 : (a.Chunks.getD a.CurrentChunkPos default).T0 < ts
      · rw [if_pos h2] at h; cases h
      · rw [if_neg h2] at h
        by_cases h3 : a.Chunks.length = 1
        · rw [if_pos h3] at h; cases h
        · rw [if_neg h3] at h
          by_cases h4 : (a.Chunks.getD (guessOf a.CurrentChunkPos a.Chunks.length
              (((a.Chunks.getD a.CurrentChunkPos default).T0 - ts) / a.ChunkSpan))
              default).T0 = ts
          · rw [if_pos h4] at h
            injection h with h
            subst h
            exact ⟨guessOf_lt _ _ _ (hcp h0), h4⟩
          · rw [if_neg h4] at h
            by_cases h5 : (a.Chunks.getD (guessOf a.CurrentChunkPos a.Chunks.length
                (((a.Chunks.getD a.CurrentChunkPos default).T0 - ts) / a.ChunkSpan))
                default).T0 < ts
            · rw [if_pos h5] at h
              exact scanNewer_sound a.Chunks _ ts _ _ p h h0
            · rw [if_neg h5] at h
              exact scanOlder_sound a.Chunks _ _ ts _ _ p h h0 (guessOf_lt _ _ _ (hcp h0))

theorem sync_eq_of_found (b : AggMetric) (ts p : Nat) (h : b.getChunkByT0 ts = some p) :
    b.SyncChunkSaveState ts =
      { b with Chunks := b.Chunks.set p { b.Chunks.getD p default with Saved := true } } := by
  unfold AggMetric.SyncChunkSaveState
  rw [h]

theorem sync_eq_of_none (b : AggMetric) (ts : Nat) (h : b.getChunkByT0 ts = none) :
    b.SyncChunkSaveState ts = b := by
  unfold AggMetric.SyncChunkSaveState
  rw [h]

/-! ## `Add` branch lemmas -/

theorem Add_empty (a : AggMetric) (ts : Nat) (v : Val) (now : Nat) (pr : Bool)
    (h : a.Chunks.length = 0) :
    a.Add ts v now pr = some { a with
      Chunks := [freshChunk (ts - ts % a.ChunkSpan) ts v now]
      firstChunkT0 := ts - ts % a.ChunkSpan
      chunkCreateCount := a.chunkCreateCount + 1
      aggEvents := a.aggEvents ++ [(ts, v)] } := by
  have hnil : a.Chunks = [] := List.length_eq_zero.mp h
  unfold AggMetric.Add
  rw [getChunk_eq_none a _ (by omega)]
  simp [hnil, Chunk.Push, NewChunk, freshChunk, AggMetric.addAggregators]

theorem Add_same_push (a : AggMetric) (ts : Nat) (v : Val) (now : Nat) (pr : Bool)
    (hcp : a.CurrentChunkPos < a.Chunks.length)
    (ht : ts - ts % a.ChunkSpan = (a.Chunks.getD a.CurrentChunkPos default).T0)
    (hs : (a.Chunks.getD a.CurrentChunkPos default).Saved = false)
    (hf : (a.Chunks.getD a.CurrentChunkPos default).Finished = false) :
    a.Add ts v now pr = some { a with
      Chunks := a.Chunks.set a.CurrentChunkPos
        { a.Chunks.getD a.CurrentChunkPos default with
          LastTs := ts, LastWrite := now
          NumPoints := (a.Chunks.getD a.CurrentChunkPos default).NumPoints + 1
          Points := (a.Chunks.getD a.CurrentChunkPos default).Points ++ [(ts, v)] }
      aggEvents := a.aggEvents ++ [(ts, v)] } := by
  unfold AggMetric.Add
  rw [getChunk_eq_some a _ hcp]
  dsimp only
  rw [if_pos ht, if_neg (by rw [hs]; exact Bool.false_ne_true :
    ¬ ((a.Chunks.getD a.CurrentChunkPos default).Saved = true))]
  rw [show (a.Chunks.getD a.CurrentChunkPos default).Push ts v now =
      some { a.Chunks.getD a.CurrentChunkPos default with
        LastTs := ts, LastWrite := now
        NumPoints := (a.Chunks.getD a.CurrentChunkPos default).NumPoints + 1
        Points := (a.Chunks.getD a.CurrentChunkPos default).Points ++ [(ts, v)] } by
    unfold Chunk.Push
    rw [if_neg (by rw [hf]; exact Bool.false_ne_true)]]
  dsimp only [AggMetric.addAggregators]

theorem Add_reject_saved (a : AggMetric) (ts : Nat) (v : Val) (now : Nat) (pr : Bool)
    (hcp : a.CurrentChunkPos < a.Chunks.length)
    (ht : ts - ts % a.ChunkSpan = (a.Chunks.getD a.CurrentChunkPos default).T0)
    (hs : (a.Chunks.getD a.CurrentChunkPos default).Saved = true) :
    a.Add ts v now pr = some a := by
  unfold AggMetric.Add
  rw [getChunk_eq_some a _ hcp]
  dsimp only
  rw [if_pos ht, if_pos hs]

theorem Add_reject_pushfail (a : AggMetric) (ts : Nat) (v : Val) (now : Nat) (pr : Bool)
    (hcp : a.CurrentChunkPos < a.Chunks.length)
    (ht : ts - ts % a.ChunkSpan = (a.Chunks.getD a.CurrentChunkPos default).T0)
    (hs : (a.Chunks.getD a.CurrentChunkPos default).Saved = false)
    (hf : (a.Chunks.getD a.CurrentChunkPos default).Finished = true) :
    a.Add ts v now pr = some a := by
  unfold AggMetric.Add
  rw [getChunk_eq_some a _ hcp]
  dsimp only
  rw [if_pos ht, if_neg (by rw [hs]; exact Bool.false_ne_true :
    ¬ ((a.Chunks.getD a.CurrentChunkPos default).Saved = true))]
  rw [show (a.Chunks.getD a.CurrentChunkPos default).Push ts v now = none by
    unfold Chunk.Push
    rw [if_pos hf]]

theorem Add_reject_old (a : AggMetric) (ts : Nat) (v : Val) (now : Nat) (pr : Bool)
    (hcp : a.CurrentChunkPos < a.Chunks.length)
    (hlt : ts - ts % a.ChunkSpan < (a.Chunks.getD a.CurrentChunkPos default).T0) :
    a.Add ts v now pr = some a := by
  unfold AggMetric.Add
  rw [getChunk_eq_some a _ hcp]
  simp only [if_neg (by omega : ¬(ts - ts % a.ChunkSpan =
    (a.Chunks.getD a.CurrentChunkPos default).T0)), if_pos hlt]

theorem Add_roll_not_unchanged (a : AggMetric) (ts : Nat) (v : Val) (now : Nat) (pr : Bool)
    (hcp : a.CurrentChunkPos < a.Chunks.length)
    (hgt : (a.Chunks.getD a.CurrentChunkPos default).T0 < ts - ts % a.ChunkSpan) :
    a.Add ts v now pr ≠ some a := by
  unfold AggMetric.Add
  rw [getChunk_eq_some a _ hcp]
  simp only [if_neg (by omega : ¬(ts - ts % a.ChunkSpan =
      (a.Chunks.getD a.CurrentChunkPos default).T0)),
    if_neg (by omega : ¬(ts - ts % a.ChunkSpan <
      (a.Chunks.getD a.CurrentChunkPos default).T0))]
  have hagg : (a.persist a.CurrentChunkPos now pr).aggEvents = a.aggEvents :=
    (persist_frame a a.CurrentChunkPos now pr).2.2.2.2.2.2.1
  split
  · cases hpush : ((((a.persist a.CurrentChunkPos now pr).Chunks ++
        [NewChunk (ts - ts % a.ChunkSpan)]).getD (if (a.persist a.CurrentChunkPos now pr).CurrentChunkPos + 1 ≥
          (a.persist a.CurrentChunkPos now pr).NumChunks then 0
        else (a.persist a.CurrentChunkPos now pr).CurrentChunkPos + 1) default).Push ts v now) with
    | none => simp [hpush]
    | some c =>
      simp only [hpush]
      intro h
      injection h with h
      have := congrArg AggMetric.aggEvents h
      simp [AggMetric.addAggregators, hagg] at this
  · cases hpush : (((a.persist a.CurrentChunkPos now pr).Chunks.set
        (if (a.persist a.CurrentChunkPos now pr).CurrentChunkPos + 1 ≥
            (a.persist a.CurrentChunkPos now pr).NumChunks then 0
          else (a.persist a.CurrentChunkPos now pr).CurrentChunkPos + 1)
        (NewChunk (ts - ts % a.ChunkSpan))).getD
          (if (a.persist a.CurrentChunkPos now pr).CurrentChunkPos + 1 ≥
            (a.persist a.CurrentChunkPos now pr).NumChunks then 0
          else (a.persist a.CurrentChunkPos now pr).CurrentChunkPos + 1) default).Push ts v now with
    | none => simp [hpush]
    | some c =>
      simp only [hpush]
      intro h
      injection h with h
      have := congrArg AggMetric.aggEvents h
      simp [AggMetric.addAggregators, hagg] at this

/-! ## Claim C4: amended theorem -/

/-- C4 (amended): on a non-empty buffer, `Add` leaves the entire state unchanged
(no chunk contents, positions, flags, counters, and no aggregator event) exactly
when `t0 < current.t0`, or `t0 = current.t0` and the current chunk is saved *or
can no longer accept a push because it has been finished* (e.g. by a
GC-triggered persist). -/
theorem C4_add_reject_iff (a : AggMetric) (ts : Nat) (v : Val) (now : Nat) (pr : Bool)
    (hne : a.Chunks.length ≠ 0) (hcp : a.CurrentChunkPos < a.Chunks.length) :
    a.Add ts v now pr = some a ↔
      (ts - ts % a.ChunkSpan < (a.Chunks.getD a.CurrentChunkPos default).T0 ∨
        (ts - ts % a.ChunkSpan = (a.Chunks.getD a.CurrentChunkPos default).T0 ∧
          ((a.Chunks.getD a.CurrentChunkPos default).Saved = true ∨
            (a.Chunks.getD a.CurrentChunkPos default).Finished = true))) := by
  constructor
  · intro h
    by_cases h1 : ts - ts % a.ChunkSpan < (a.Chunks.getD a.CurrentChunkPos default).T0
    · exact Or.inl h1
    · by_cases h2 : ts - ts % a.ChunkSpan = (a.Chunks.getD a.CurrentChunkPos default).T0
      · refine Or.inr ⟨h2, ?_⟩
        by_contra hnot
        push_neg at hnot
        have hs : (a.Chunks.getD a.CurrentChunkPos default).Saved = false := by
          cases hx : (a.Chunks.getD a.CurrentChunkPos default).Saved with
          | false => rfl
          | true => exact absurd hx hnot.1
        have hf : (a.Chunks.getD a.CurrentChunkPos default).Finished = false := by
          cases hx : (a.Chunks.getD a.CurrentChunkPos default).Finished with
          | false => rfl
          | true => exact absurd hx hnot.2
        have hpush := Add_same_push a ts v now pr hcp h2 hs hf
        rw [h] at hpush
        injection hpush with hpush
        have := congrArg AggMetric.aggEvents hpush
        simp at this
      · have h3 : (a.Chunks.getD a.CurrentChunkPos default).T0 < ts - ts % a.ChunkSpan := by
          omega
        exact absurd h (Add_roll_not_unchanged a ts v now pr hcp h3)
  · intro h
    rcases h with h1 | ⟨h2, h3⟩
    · exact Add_reject_old a ts v now pr hcp h1
    · by_cases hs : (a.Chunks.getD a.CurrentChunkPos default).Saved = true
      · exact Add_reject_saved a ts v now pr hcp h2 hs
      · have hs' : (a.Chunks.getD a.CurrentChunkPos default).Saved = false := by
          cases hx : (a.Chunks.getD a.CurrentChunkPos default).Saved with
          | false => rfl
          | true => exact absurd hx hs
        have hf : (a.Chunks.getD a.CurrentChunkPos default).Finished = true := by
          rcases h3 with h3 | h3
          · exact absurd h3 hs
          · exact h3
        exact Add_reject_pushfail a ts v now pr hcp h2 hs' hf

/-- C4 witness: a one-chunk buffer whose current chunk (`t0 = 60`) is saved; an
`add` at `ts = 70` (same `t0`) is dropped, leaving the state unchanged. -/
theorem C4_witness :
    (oneChunkState { T0 := 60, LastTs := 65, LastWrite := 5, NumPoints := 1, Points := [(65, 1)], Saving := false, Saved := true, Finished := true }).Add 70 2 9 true =
      some (oneChunkState { T0 := 60, LastTs := 65, LastWrite := 5, NumPoints := 1, Points := [(65, 1)], Saving := false, Saved := true, Finished := true }) :=
  (C4_add_reject_iff (oneChunkState { T0 := 60, LastTs := 65, LastWrite := 5, NumPoints := 1, Points := [(65, 1)], Saving := false, Saved := true, Finished := true }) 70 2 9 true
    (by decide) (by decide)).mpr (by decide)

/-! ## Claim C9: amended theorem -/

theorem Add_roll_shape (a : AggMetric) (ts : Nat) (v : Val) (now : Nat) (pr : Bool)
    (hcp : a.CurrentChunkPos < a.Chunks.length)
    (hgt : (a.Chunks.getD a.CurrentChunkPos default).T0 < ts - ts % a.ChunkSpan) :
    ∀ a', a.Add ts v now pr = some a' →
      a'.NumChunks = a.NumChunks ∧
      a'.CurrentChunkPos =
        (if a.CurrentChunkPos + 1 ≥ a.NumChunks then 0 else a.CurrentChunkPos + 1) ∧
      a'.Chunks.length =
        (if a.Chunks.length < a.NumChunks then a.Chunks.length + 1 else a.Chunks.length) := by
  intro a' hadd
  obtain ⟨-, hfcp, hfnum, -, -, -, -, -, -, -, hflen⟩ :=
    persist_frame a a.CurrentChunkPos now pr
  unfold AggMetric.Add at hadd
  rw [getChunk_eq_some a _ hcp] at hadd
  simp only [if_neg (by omega : ¬(ts - ts % a.ChunkSpan =
      (a.Chunks.getD a.CurrentChunkPos default).T0)),
    if_neg (by omega : ¬(ts - ts % a.ChunkSpan <
      (a.Chunks.getD a.CurrentChunkPos default).T0))] at hadd
  rw [hfcp, hfnum, hflen] at hadd
  by_cases hl : a.Chunks.length < a.NumChunks
  · rw [if_pos hl] at hadd
    cases hpush : (((a.persist a.CurrentChunkPos now pr).Chunks ++
        [NewChunk (ts - ts % a.ChunkSpan)]).getD
          (if a.CurrentChunkPos + 1 ≥ a.NumChunks then 0 else a.CurrentChunkPos + 1)
          default).Push ts v now with
    | none => rw [hpush] at hadd; cases hadd
    | some c =>
      rw [hpush] at hadd
      injection hadd with hadd
      subst hadd
      refine ⟨rfl, rfl, ?_⟩
      simp [AggMetric.addAggregators, hflen, hl]
  · rw [if_neg hl] at hadd
    cases hpush : (((a.persist a.CurrentChunkPos now pr).Chunks.set
        (if a.CurrentChunkPos + 1 ≥ a.NumChunks then 0 else a.CurrentChunkPos + 1)
        (NewChunk (ts - ts % a.ChunkSpan))).getD
          (if a.CurrentChunkPos + 1 ≥ a.NumChunks then 0 else a.CurrentChunkPos + 1)
          default).Push ts v now with
    | none => rw [hpush] at hadd; cases hadd
    | some c =>
      rw [hpush] at hadd
      injection hadd with hadd
      subst hadd
      refine ⟨rfl, rfl, ?_⟩
      simp [AggMetric.addAggregators, hflen, hl]

theorem RingWF_of_frame (a a' : AggMetric) (hlen : a'.Chunks.length = a.Chunks.length)
    (hcp : a'.CurrentChunkPos = a.CurrentChunkPos) (hnum : a'.NumChunks = a.NumChunks)
    (h : RingWF a) : RingWF a' := by
  obtain ⟨h1, h2, h3, h4⟩ := h
  exact ⟨fun h0 => by rw [hcp]; exact h1 (by omega),
    fun h0 => by rw [hcp, hlen]; exact h2 (by omega),
    by omega, by omega⟩

/-- C9 (amended): the strengthened predicate `RingWF` — which additionally pins
`CurrentChunkPos = 0` on the empty buffer and requires `NumChunks ≥ 1` — holds
for a freshly constructed metric and is preserved by `Add` (when it returns),
`GC` and `SyncChunkSaveState`; it implies the claimed `PosInBounds` predicate,
so the current-chunk lookup never returns `nil` on a non-empty buffer. -/
theorem C9_ring_wf_preserved :
    (∀ key sp n t, 1 ≤ n → RingWF (NewAggMetric key sp n t)) ∧
    (∀ a ts v now pr a', RingWF a → a.Add ts v now pr = some a' → RingWF a') ∧
    (∀ a c m now pr, RingWF a → RingWF (a.GC c m now pr).2) ∧
    (∀ a ts, RingWF a → RingWF (a.SyncChunkSaveState ts)) ∧
    (∀ a, RingWF a → PosInBounds a) ∧
    (∀ a, RingWF a → a.Chunks.length ≠ 0 → a.getChunk a.CurrentChunkPos ≠ none) := by
  have hper : ∀ a (pos now : Nat) (pr : Bool), RingWF a → RingWF (a.persist pos now pr) := by
    intro a pos now pr h
    obtain ⟨-, hfcp, hfnum, -, -, -, -, -, -, -, hflen⟩ := persist_frame a pos now pr
    exact RingWF_of_frame _ _ hflen hfcp hfnum h
  refine ⟨?_, ?_, ?_, ?_, ?_, ?_⟩
  · intro key sp n t hn
    exact ⟨fun _ => rfl, fun h => absurd rfl h, by simpa [NewAggMetric] using hn,
      by simpa [NewAggMetric] using hn⟩
  · intro a ts v now pr a' h hadd
    obtain ⟨h1, h2, h3, h4⟩ := h
    by_cases hlen : a.Chunks.length = 0
    · rw [Add_empty a ts v now pr hlen] at hadd
      injection hadd with hadd
      subst hadd
      refine ⟨fun h0 => by simp at h0, fun _ => ?_, by simpa using h4, h4⟩
      have hcp0 := h1 hlen
      simp [hcp0]
    · have hcp : a.CurrentChunkPos < a.Chunks.length := h2 hlen
      by_cases heq : ts - ts % a.ChunkSpan = (a.Chunks.getD a.CurrentChunkPos default).T0
      · by_cases hs : (a.Chunks.getD a.CurrentChunkPos default).Saved = true
        · rw [Add_reject_saved a ts v now pr hcp heq hs] at hadd
          injection hadd with hadd
          subst hadd
          exact ⟨h1, h2, h3, h4⟩
        · have hs' : (a.Chunks.getD a.CurrentChunkPos default).Saved = false := by
            cases hx : (a.Chunks.getD a.CurrentChunkPos default).Saved with
            | false => rfl
            | true => exact absurd hx hs
          by_cases hf : (a.Chunks.getD a.CurrentChunkPos default).Finished = true
          · rw [Add_reject_pushfail a ts v now pr hcp heq hs' hf] at hadd
            injection hadd with hadd
            subst hadd
            exact ⟨h1, h2, h3, h4⟩
          · have hf' : (a.Chunks.getD a.CurrentChunkPos default).Finished = false := by
              cases hx : (a.Chunks.getD a.CurrentChunkPos default).Finished with
              | false => rfl
              | true => exact absurd hx hf
            rw [Add_same_push a ts v now pr hcp heq hs' hf'] at hadd
            injection hadd with hadd
            subst hadd
            refine ⟨fun h0 => ?_, fun _ => by simpa using hcp, by simpa using h3, h4⟩
            simp at h0
            exact absurd (by simp [h0] : a.Chunks.length = 0) hlen
      · by_cases hlt : ts - ts % a.ChunkSpan < (a.Chunks.getD a.CurrentChunkPos default).T0
        · rw [Add_reject_old a ts v now pr hcp hlt] at hadd
          injection hadd with hadd
          subst hadd
          exact ⟨h1, h2, h3, h4⟩
        · have hgt : (a.Chunks.getD a.CurrentChunkPos default).T0 < ts - ts % a.ChunkSpan := by
            omega
          obtain ⟨hnum, hcp', hlen'⟩ := Add_roll_shape a ts v now pr hcp hgt a' hadd
          refine ⟨fun h0 => ?_, fun _ => ?_, ?_, by omega⟩
          · rw [hlen'] at h0
            split at h0 <;> omega
          · rw [hcp', hlen']
            by_cases hwrap : a.CurrentChunkPos + 1 ≥ a.NumChunks
            · rw [if_pos hwrap]
              split <;> omega
            · rw [if_neg hwrap]
              split <;> omega
          · rw [hlen', hnum]
            split <;> omega
  · intro a c m now pr h
    by_cases hlen : a.Chunks.length = 0
    · unfold AggMetric.GC
      rw [getChunk_eq_none a _ (by omega)]
      exact h
    · have hcp := h.2.1 hlen
      have hgc : a.GC c m now pr =
          (if (a.Chunks.getD a.CurrentChunkPos default).LastWrite < c then
            if (a.Chunks.getD a.CurrentChunkPos default).Saved = true ∧
                (a.Chunks.getD a.CurrentChunkPos default).LastWrite < m then (true, a)
            else (false, a.persist a.CurrentChunkPos now pr)
          else (false, a)) := by
        unfold AggMetric.GC
        rw [getChunk_eq_some a _ hcp]
      rw [hgc]
      by_cases h1 : (a.Chunks.getD a.CurrentChunkPos default).LastWrite < c
      · rw [if_pos h1]
        by_cases h2 : (a.Chunks.getD a.CurrentChunkPos default).Saved = true ∧
            (a.Chunks.getD a.CurrentChunkPos default).LastWrite < m
        · rw [if_pos h2]; exact h
        · rw [if_neg h2]; exact hper a _ now pr h
      · rw [if_neg h1]; exact h
  · intro a ts h
    cases hr : a.getChunkByT0 ts with
    | none => rw [sync_eq_of_none a ts hr]; exact h
    | some p =>
      rw [sync_eq_of_found a ts p hr]
      exact RingWF_of_frame a _ (by simp) rfl rfl h
  · intro a h
    intro hne
    exact ⟨h.2.1 hne, h.2.2.1⟩
  · intro a h hne
    rw [getChunk_eq_some a _ (h.2.1 hne)]
    simp

/-- C9 witness: `RingWF` holds for the freshly constructed metric with
`num_chunks = 3`. -/
theorem C9_witness : RingWF (NewAggMetric "w" 60 3 0) :=
  C9_ring_wf_preserved.1 "w" 60 3 0 (by decide)

/-! ## Claim C10 -/

theorem collectPending_mem_cond (chunks : List Chunk) (t0 : Nat) :
    ∀ fuel start q, q ∈ collectPending chunks t0 start fuel →
      (chunks.getD q default).T0 < t0 ∧ (chunks.getD q default).Saved = false ∧
        (chunks.getD q default).Saving = false := by
  intro fuel
  induction fuel with
  | zero => intro start q h; simp [collectPending] at h
  | succ f ih =>
    intro start q h
    unfold collectPending at h
    by_cases hc : (chunks.getD start default).T0 < t0 ∧
        (chunks.getD start default).Saved = false ∧ (chunks.getD start default).Saving = false
    · rw [if_pos hc] at h
      rcases List.mem_cons.mp h with h | h
      · subst h; exact hc
      · exact ih _ q h
    · rw [if_neg hc] at h
      simp at h
  -- termination is structural on `fuel`

theorem foldl_submitOne_storeLog_extends (now : Nat) :
    ∀ (l : List Nat) (st : AggMetric), ∃ reqs,
      (l.foldl (submitOne now) st).storeLog = st.storeLog ++ reqs := by
  intro l
  induction l with
  | nil => intro st; exact ⟨[], by simp⟩
  | cons q t ih =>
    intro st
    obtain ⟨reqs, hreqs⟩ := ih (submitOne now st q)
    refine ⟨{ key := st.Key, chunk := st.Chunks.getD q default, ttl := st.ttl, timestamp := now } :: reqs, ?_⟩
    rw [List.foldl_cons, hreqs]
    simp [submitOne]

theorem foldl_submitOne_getD_not_mem (now : Nat) :
    ∀ (l : List Nat) (st : AggMetric) (p : Nat), p ∉ l →
      (l.foldl (submitOne now) st).Chunks.getD p default = st.Chunks.getD p default := by
  intro l
  induction l with
  | nil => intro st p _; rfl
  | cons q t ih =>
    intro st p hp
    rw [List.foldl_cons, ih _ p (fun h => hp (List.mem_cons_of_mem q h))]
    show ((st.Chunks.set q _).getD p default) = _
    exact getD_set_ne _ _ _ _ (fun h => hp (by rw [h]; exact List.mem_cons_self p t))

/-- C10 part A helper: on a primary, `persist pos` always hands the store a
request for the chunk at `pos` (finished, with the caller's key), as the *last*
submission, regardless of that chunk's `Saving`/`Saved` flags. -/
theorem persist_always_enqueues_pos (a : AggMetric) (pos now : Nat)
    (hpos : pos < a.Chunks.length) :
    ∃ reqs, (a.persist pos now true).storeLog = a.storeLog ++ reqs ∧ reqs ≠ [] ∧
      reqs.getLast? = some { key := a.Key, chunk := (a.Chunks.getD pos default).Finish now, ttl := a.ttl, timestamp := now } := by
  unfold AggMetric.persist
  rw [if_neg (by simp)]
  set a1 : AggMetric := { a with Chunks := finishChunksAt a pos now } with ha1
  set walk := collectPending (finishChunksAt a pos now)
    ((a.Chunks.getD pos default).Finish now).T0
    (if pos = 0 then (finishChunksAt a pos now).length - 1 else pos - 1)
    (finishChunksAt a pos now).length with hwalk
  have hget1 : (finishChunksAt a pos now).getD pos default =
      (a.Chunks.getD pos default).Finish now := by
    unfold finishChunksAt
    exact getD_set_self a.Chunks pos _ hpos
  have hpos1 : pos ∉ walk.reverse := by
    rw [List.mem_reverse]
    intro hmem
    have hcond := collectPending_mem_cond (finishChunksAt a pos now) _ _ _ pos hmem
    rw [hget1] at hcond
    exact absurd hcond.1 (lt_irrefl _)
  rw [List.foldl_concat]
  obtain ⟨reqs', hreqs'⟩ := foldl_submitOne_storeLog_extends now walk.reverse a1
  obtain ⟨hKey, -, -, -, -, httl, -⟩ := foldl_submitOne_frame now walk.reverse a1
  have hgetD : (walk.reverse.foldl (submitOne now) a1).Chunks.getD pos default =
      (a.Chunks.getD pos default).Finish now := by
    rw [foldl_submitOne_getD_not_mem now walk.reverse a1 pos hpos1, ha1]
    exact hget1
  refine ⟨reqs' ++ [{ key := a.Key, chunk := (a.Chunks.getD pos default).Finish now, ttl := a.ttl, timestamp := now }], ?_, by simp, by rw [List.getLast?_concat]⟩
  show (walk.reverse.foldl (submitOne now) a1).storeLog ++ _ = _
  rw [hreqs', hgetD, hKey, httl]
  simp [ha1]

/-- Single-chunk `persist` on a primary: the walk collects nothing and the one
chunk is finished, submitted and marked saving. -/
theorem persist_single (b : AggMetric) (d : Chunk) (nw : Nat) (hb : b.Chunks = [d]) :
    b.persist 0 nw true = { b with
      Chunks := [{ d.Finish nw with Saving := true }]
      storeLog := b.storeLog ++
        [{ key := b.Key, chunk := d.Finish nw, ttl := b.ttl, timestamp := nw }] } := by
  unfold AggMetric.persist finishChunksAt
  rw [if_neg (by simp)]
  rw [hb]
  simp [collectPending, submitOne, List.foldl]

/-- Single-chunk idle non-droppable `GC` on a primary forces a persist. -/
theorem gc_single_idle (b : AggMetric) (d : Chunk) (c m nw : Nat)
    (hb : b.Chunks = [d]) (hcp : b.CurrentChunkPos = 0) (hs : d.Saved = false)
    (hw : d.LastWrite < c) :
    b.GC c m nw true = (false, b.persist 0 nw true) := by
  unfold AggMetric.GC
  rw [hcp]
  rw [show b.getChunk 0 = some d by simp [AggMetric.getChunk, hb]]
  have hgc : (match some d with
      | none => (false, b)
      | some currentChunk =>
        if currentChunk.LastWrite < c then
          if currentChunk.Saved = true ∧ currentChunk.LastWrite < m then (true, b)
          else (false, b.persist 0 nw true)
        else (false, b)) =
      (if d.LastWrite < c then
        if d.Saved = true ∧ d.LastWrite < m then (true, b)
        else (false, b.persist 0 nw true)
      else (false, b)) := rfl
  rw [hgc, if_pos hw, if_neg (by simp [hs])]

/-- C10: `persist` always enqueues the chunk at the given position (as the last
submission to the store) regardless of its `Saving`/`Saved` flags; consequently,
on a primary, two consecutive GC passes over a still-idle single-chunk buffer
whose chunk is not droppable hand the store two `ChunkWriteRequest`s with the
same `(key, t0)`. -/
theorem C10_persist_requeues_current :
    (∀ (a : AggMetric) (pos now : Nat), pos < a.Chunks.length →
      ∃ reqs, (a.persist pos now true).storeLog = a.storeLog ++ reqs ∧ reqs ≠ [] ∧
        reqs.getLast? = some { key := a.Key, chunk := (a.Chunks.getD pos default).Finish now, ttl := a.ttl, timestamp := now }) ∧
    (∀ (a : AggMetric) (ch : Chunk) (c1 m1 now c2 m2 now2 : Nat),
      a.Chunks = [ch] → a.CurrentChunkPos = 0 → ch.Saved = false →
      ch.LastWrite < c1 → now < c2 →
      (a.GC c1 m1 now true).1 = false ∧
      ((a.GC c1 m1 now true).2.GC c2 m2 now2 true).1 = false ∧
      (((a.GC c1 m1 now true).2.GC c2 m2 now2 true).2.storeLog.map
          (fun r => (r.key, r.chunk.T0))) =
        a.storeLog.map (fun r => (r.key, r.chunk.T0)) ++
          [(a.Key, ch.T0), (a.Key, ch.T0)]) := by
  refine ⟨fun a pos now h => persist_always_enqueues_pos a pos now h, ?_⟩
  intro a ch c1 m1 now c2 m2 now2 hb hcp hs hw hnc
  have h1 := gc_single_idle a ch c1 m1 now hb hcp hs hw
  have hp1 := persist_single a ch now hb
  set s1 : AggMetric := { a with
    Chunks := [{ ch.Finish now with Saving := true }]
    storeLog := a.storeLog ++
      [{ key := a.Key, chunk := ch.Finish now, ttl := a.ttl, timestamp := now }] } with hs1
  have hgc1 : a.GC c1 m1 now true = (false, s1) := by rw [h1, hp1]
  have h2 := gc_single_idle s1 { ch.Finish now with Saving := true } c2 m2 now2 rfl hcp
    (by simp [Chunk.Finish, hs]) (by simp [Chunk.Finish]; omega)
  have hp2 := persist_single s1 { ch.Finish now with Saving := true } now2 rfl
  refine ⟨by rw [hgc1], ?_, ?_⟩
  · rw [hgc1]
    show (s1.GC c2 m2 now2 true).1 = false
    rw [h2]
  · rw [hgc1]
    show ((s1.GC c2 m2 now2 true).2.storeLog.map (fun r => (r.key, r.chunk.T0))) = _
    rw [h2]
    show ((s1.persist 0 now2 true).storeLog.map (fun r => (r.key, r.chunk.T0))) = _
    rw [hp2]
    simp [hs1, Chunk.Finish]

/-- C10 witness: a one-chunk buffer; `persist 0` on a primary appends a request
for the chunk at position 0. -/
theorem C10_witness :
    ∃ reqs, ((oneChunkState (NewChunk 60)).persist 0 5 true).storeLog =
        (oneChunkState (NewChunk 60)).storeLog ++ reqs ∧ reqs ≠ [] ∧
      reqs.getLast? = some { key := (oneChunkState (NewChunk 60)).Key, chunk := ((oneChunkState (NewChunk 60)).Chunks.getD 0 default).Finish 5, ttl := (oneChunkState (NewChunk 60)).ttl, timestamp := 5 } :=
  C10_persist_requeues_current.1 (oneChunkState (NewChunk 60)) 0 5 (by decide)

/-! ## Ring position arithmetic -/

theorem backPos_lt (pos len j : Nat) (hlen : len ≠ 0) : backPos pos len j < len :=
  Nat.mod_lt _ (by omega)

theorem logicalIdx_lt (a : AggMetric) (i : Nat) (hlen : a.Chunks.length ≠ 0) :
    logicalIdx a i < a.Chunks.length :=
  Nat.mod_lt _ (by omega)

theorem logicalIdx_last (a : AggMetric) (hcp : a.CurrentChunkPos < a.Chunks.length) :
    logicalIdx a (a.Chunks.length - 1) = a.CurrentChunkPos := by
  unfold logicalIdx
  have h1 : a.CurrentChunkPos + 1 + (a.Chunks.length - 1) =
      a.CurrentChunkPos + a.Chunks.length := by omega
  rw [h1, Nat.add_mod_right, Nat.mod_eq_of_lt hcp]

theorem logicalIdx_succ_pos (a : AggMetric) (i : Nat)
    (hlen : a.Chunks.length ≠ 0) :
    (if logicalIdx a i + 1 ≥ a.Chunks.length then 0 else logicalIdx a i + 1) =
      logicalIdx a (i + 1) := by
  have hlt := logicalIdx_lt a i hlen
  have hmod : (logicalIdx a i + 1) % a.Chunks.length = logicalIdx a (i + 1) := by
    unfold logicalIdx
    rw [Nat.mod_add_mod]
    congr 1
  by_cases h : logicalIdx a i + 1 ≥ a.Chunks.length
  · rw [if_pos h]
    have h2 : logicalIdx a i + 1 = a.Chunks.length := by omega
    rw [h2, Nat.mod_self] at hmod
    exact hmod
  · rw [if_neg h]
    rw [Nat.mod_eq_of_lt (by omega)] at hmod
    exact hmod

theorem logicalIdx_inj (a : AggMetric) (i j : Nat) (hi : i < a.Chunks.length)
    (hj : j < a.Chunks.length) (h : logicalIdx a i = logicalIdx a j) : i = j := by
  unfold logicalIdx at h
  have hij : i % a.Chunks.length = j % a.Chunks.length :=
    Nat.ModEq.add_left_cancel (Nat.ModEq.refl (a.CurrentChunkPos + 1)) h
  rw [Nat.mod_eq_of_lt hi, Nat.mod_eq_of_lt hj] at hij
  exact hij

theorem logicalIdx_surj (a : AggMetric) (p : Nat) (hp : p < a.Chunks.length) :
    ∃ i, i < a.Chunks.length ∧ logicalIdx a i = p := by
  have hlen : 0 < a.Chunks.length := by omega
  have hr : (a.CurrentChunkPos + 1) % a.Chunks.length < a.Chunks.length :=
    Nat.mod_lt _ hlen
  refine ⟨(p + a.Chunks.length - (a.CurrentChunkPos + 1) % a.Chunks.length) %
    a.Chunks.length, Nat.mod_lt _ hlen, ?_⟩
  unfold logicalIdx
  have e1 : a.CurrentChunkPos + 1 +
      (p + a.Chunks.length - (a.CurrentChunkPos + 1) % a.Chunks.length) %
        a.Chunks.length ≡
      (a.CurrentChunkPos + 1) % a.Chunks.length +
      (p + a.Chunks.length - (a.CurrentChunkPos + 1) % a.Chunks.length)
      [MOD a.Chunks.length] :=
    Nat.ModEq.add (Nat.mod_modEq _ _).symm (Nat.mod_modEq _ _)
  have e3 : (a.CurrentChunkPos + 1) % a.Chunks.length +
      (p + a.Chunks.length - (a.CurrentChunkPos + 1) % a.Chunks.length) =
      p + a.Chunks.length := by omega
  have e4 : (a.CurrentChunkPos + 1 +
      (p + a.Chunks.length - (a.CurrentChunkPos + 1) % a.Chunks.length) %
        a.Chunks.length) % a.Chunks.length =
      ((a.CurrentChunkPos + 1) % a.Chunks.length +
        (p + a.Chunks.length - (a.CurrentChunkPos + 1) % a.Chunks.length)) %
        a.Chunks.length := e1
  rw [e4, e3, Nat.add_mod_right, Nat.mod_eq_of_lt hp]

theorem backPos_zero (pos len : Nat) (hpos : pos < len) :
    (if pos = 0 then len - 1 else pos - 1) = backPos pos len 0 := by
  unfold backPos
  by_cases h : pos = 0
  · subst h
    rw [if_pos rfl]
    have h1 : 0 + len - 1 - 0 = len - 1 := by omega
    rw [h1, Nat.mod_eq_of_lt (by omega)]
  · rw [if_neg h]
    have h1 : pos + len - 1 - 0 = (pos - 1) + len := by omega
    rw [h1, Nat.add_mod_right, Nat.mod_eq_of_lt (by omega)]

theorem backPos_succ (pos len j : Nat) (hpos : pos < len) (hj : j < len - 1) :
    (if backPos pos len j = 0 then len - 1 else backPos pos len j - 1) =
      backPos pos len (j + 1) := by
  unfold backPos
  have hlen : 0 < len := by omega
  have hm1 : 1 ≤ pos + len - 1 - j := by omega
  have harg : pos + len - 1 - (j + 1) = (pos + len - 1 - j) - 1 := by omega
  rw [harg]
  set m := pos + len - 1 - j with hm
  have hdm := Nat.div_add_mod m len
  by_cases h : m % len = 0
  · rw [if_pos h]
    rw [h] at hdm
    cases hq : m / len with
    | zero => rw [hq] at hdm; omega
    | succ q =>
      rw [hq, Nat.mul_succ] at hdm
      have h1 : m - 1 = len * q + (len - 1) := by omega
      have h2 : (m - 1) % len = len - 1 := by
        conv_lhs => rw [h1]
        rw [Nat.mul_add_mod, Nat.mod_eq_of_lt (by omega : len - 1 < len)]
      rw [h2]
  · rw [if_neg h]
    have hr : m % len < len := Nat.mod_lt _ hlen
    have h1 : m - 1 = len * (m / len) + (m % len - 1) := by omega
    have h2 : (m - 1) % len = m % len - 1 := by
      conv_lhs => rw [h1]
      rw [Nat.mul_add_mod, Nat.mod_eq_of_lt (by omega : m % len - 1 < len)]
    rw [h2]

theorem backPos_last (pos len : Nat) (hpos : pos < len) : backPos pos len (len - 1) = pos := by
  unfold backPos
  have h1 : pos + len - 1 - (len - 1) = pos := by omega
  rw [h1, Nat.mod_eq_of_lt hpos]

theorem backPos_logicalIdx (a : AggMetric) (idx j : Nat) (hidx : idx < a.Chunks.length)
    (hj : j < idx) :
    backPos (logicalIdx a idx) a.Chunks.length j = logicalIdx a (idx - 1 - j) := by
  unfold backPos logicalIdx
  have hlen : 0 < a.Chunks.length := by omega
  have h1 : (a.CurrentChunkPos + 1 + idx) % a.Chunks.length + a.Chunks.length - 1 - j =
      (a.CurrentChunkPos + 1 + idx) % a.Chunks.length + (a.Chunks.length - 1 - j) := by
    omega
  rw [h1, Nat.mod_add_mod]
  have h2 : a.CurrentChunkPos + 1 + idx + (a.Chunks.length - 1 - j) =
      (a.CurrentChunkPos + 1 + (idx - 1 - j)) + a.Chunks.length := by omega
  rw [h2, Nat.add_mod_right]

theorem backPos_logicalIdx_self (a : AggMetric) (idx : Nat) (hidx : idx < a.Chunks.length)
    (hcp : a.CurrentChunkPos < a.Chunks.length) :
    backPos (logicalIdx a idx) a.Chunks.length idx = a.CurrentChunkPos := by
  unfold backPos logicalIdx
  have h1 : (a.CurrentChunkPos + 1 + idx) % a.Chunks.length + a.Chunks.length - 1 - idx =
      (a.CurrentChunkPos + 1 + idx) % a.Chunks.length + (a.Chunks.length - 1 - idx) := by
    omega
  rw [h1, Nat.mod_add_mod]
  have h2 : a.CurrentChunkPos + 1 + idx + (a.Chunks.length - 1 - idx) =
      a.CurrentChunkPos + a.Chunks.length := by omega
  rw [h2, Nat.add_mod_right, Nat.mod_eq_of_lt hcp]

/-! ## The backward walk of `persist`, characterised -/

theorem collectPending_run (chunks : List Chunk) (t0 pos : Nat)
    (hpos : pos < chunks.length)
    (hstop : ¬((chunks.getD pos default).T0 < t0 ∧
      (chunks.getD pos default).Saved = false ∧
      (chunks.getD pos default).Saving = false)) :
    ∀ fuel j, j ≤ chunks.length - 1 → chunks.length - j ≤ fuel →
      ∃ k, j ≤ k ∧ k ≤ chunks.length - 1 ∧
        collectPending chunks t0 (backPos pos chunks.length j) fuel =
          (List.range' j (k - j)).map (backPos pos chunks.length) ∧
        (∀ i, j ≤ i → i < k →
          ((chunks.getD (backPos pos chunks.length i) default).T0 < t0 ∧
            (chunks.getD (backPos pos chunks.length i) default).Saved = false ∧
            (chunks.getD (backPos pos chunks.length i) default).Saving = false)) ∧
        ¬((chunks.getD (backPos pos chunks.length k) default).T0 < t0 ∧
          (chunks.getD (backPos pos chunks.length k) default).Saved = false ∧
          (chunks.getD (backPos pos chunks.length k) default).Saving = false) := by
  intro fuel
  induction fuel with
  | zero =>
    intro j hj hfuel
    exact absurd hfuel (by omega)
  | succ f ih =>
    intro j hj hfuel
    unfold collectPending
    by_cases hc : (chunks.getD (backPos pos chunks.length j) default).T0 < t0 ∧
        (chunks.getD (backPos pos chunks.length j) default).Saved = false ∧
        (chunks.getD (backPos pos chunks.length j) default).Saving = false
    · rw [if_pos hc]
      have hjlt : j < chunks.length - 1 := by
        rcases Nat.lt_or_ge j (chunks.length - 1) with h | h
        · exact h
        · exfalso
          have hj' : j = chunks.length - 1 := by omega
          rw [hj', backPos_last pos chunks.length hpos] at hc
          exact hstop hc
      rw [backPos_succ pos chunks.length j hpos hjlt]
      obtain ⟨k, hk1, hk2, hk3, hk4, hk5⟩ := ih (j + 1) (by omega) (by omega)
      refine ⟨k, by omega, hk2, ?_, ?_, hk5⟩
      · rw [hk3]
        have hkk : k - j = (k - (j + 1)) + 1 := by omega
        rw [hkk, List.range'_succ]
        simp
      · intro i hi1 hi2
        rcases Nat.eq_or_lt_of_le hi1 with h | h
        · rw [← h]
          exact hc
        · exact hk4 i (by omega) hi2
    · rw [if_neg hc]
      refine ⟨j, le_refl j, hj, ?_, ?_, hc⟩
      · rw [Nat.sub_self]
        simp
      · intro i hi1 hi2
        omega

theorem collectPending_full (chunks : List Chunk) (t0 pos : Nat)
    (hpos : pos < chunks.length)
    (hstop : ¬((chunks.getD pos default).T0 < t0 ∧
      (chunks.getD pos default).Saved = false ∧
      (chunks.getD pos default).Saving = false)) :
    ∃ k, k ≤ chunks.length - 1 ∧
      collectPending chunks t0 (if pos = 0 then chunks.length - 1 else pos - 1)
        chunks.length = backPosList pos chunks.length k ∧
      (∀ j, j < k →
        ((chunks.getD (backPos pos chunks.length j) default).T0 < t0 ∧
          (chunks.getD (backPos pos chunks.length j) default).Saved = false ∧
          (chunks.getD (backPos pos chunks.length j) default).Saving = false)) ∧
      ¬((chunks.getD (backPos pos chunks.length k) default).T0 < t0 ∧
        (chunks.getD (backPos pos chunks.length k) default).Saved = false ∧
        (chunks.getD (backPos pos chunks.length k) default).Saving = false) := by
  obtain ⟨k, -, hk2, hk3, hk4, hk5⟩ :=
    collectPending_run chunks t0 pos hpos hstop chunks.length 0 (by omega) (by omega)
  refine ⟨k, hk2, ?_, fun j hj => hk4 j (by omega) hj, hk5⟩
  rw [backPos_zero pos chunks.length hpos, hk3]
  unfold backPosList
  rw [Nat.sub_zero, List.range_eq_range']

/-! ## The submission fold of `persist`, characterised -/

theorem foldl_submitOne_spec (now : Nat) :
    ∀ (l : List Nat) (st : AggMetric), l.Nodup → (∀ p ∈ l, p < st.Chunks.length) →
      (l.foldl (submitOne now) st).storeLog = st.storeLog ++
        l.map (fun p => { key := st.Key, chunk := st.Chunks.getD p default, ttl := st.ttl, timestamp := now }) ∧
      (∀ p ∈ l, (l.foldl (submitOne now) st).Chunks.getD p default =
        { st.Chunks.getD p default with Saving := true }) ∧
      (∀ q, q ∉ l → (l.foldl (submitOne now) st).Chunks.getD q default =
        st.Chunks.getD q default) := by
  intro l
  induction l with
  | nil => intro st _ _; exact ⟨by simp, by simp, fun q _ => rfl⟩
  | cons x t ih =>
    intro st hnodup hlt
    have hxt : x ∉ t := (List.nodup_cons.mp hnodup).1
    have hxlen : x < st.Chunks.length := hlt x (List.mem_cons_self x t)
    have hlen' : (submitOne now st x).Chunks.length = st.Chunks.length := by
      simp [submitOne]
    obtain ⟨ih1, ih2, ih3⟩ := ih (submitOne now st x) (List.nodup_cons.mp hnodup).2
      (fun p hp => by rw [hlen']; exact hlt p (List.mem_cons_of_mem x hp))
    refine ⟨?_, ?_, ?_⟩
    · rw [List.foldl_cons, ih1]
      have hmap : t.map (fun p => ({ key := (submitOne now st x).Key, chunk := (submitOne now st x).Chunks.getD p default, ttl := (submitOne now st x).ttl, timestamp := now } : ChunkWriteRequest)) =
          t.map (fun p => ({ key := st.Key, chunk := st.Chunks.getD p default, ttl := st.ttl, timestamp := now } : ChunkWriteRequest)) := by
        refine List.map_congr_left ?_
        intro p hp
        have hpx : x ≠ p := fun h => hxt (h ▸ hp)
        simp only [submitOne]
        rw [getD_set_ne _ _ _ _ hpx]
      rw [hmap]
      simp [submitOne]
    · intro p hp
      rcases List.mem_cons.mp hp with h | h
      · subst h
        rw [List.foldl_cons, ih3 p hxt]
        simp only [submitOne]
        rw [getD_set_self _ _ _ hxlen]
      · rw [List.foldl_cons, ih2 p h]
        have hpx : x ≠ p := fun hx => hxt (hx ▸ h)
        have hgd : (submitOne now st x).Chunks.getD p default =
            st.Chunks.getD p default := by
          simp only [submitOne]
          exact getD_set_ne _ _ _ _ hpx
        rw [hgd]
    · intro q hq
      rw [List.foldl_cons, ih3 q (fun h => hq (List.mem_cons_of_mem x h))]
      have hqx : x ≠ q := fun h => hq (by rw [← h]; exact List.mem_cons_self x t)
      simp only [submitOne]
      exact getD_set_ne _ _ _ _ hqx

/-- `Chain'` over the image of a contiguous index range, from the consecutive
relation. -/
theorem chain_map_range (R : Nat → Nat → Prop) (f : Nat → Nat) :
    ∀ n s, (∀ j, s ≤ j → j + 1 < s + n → R (f j) (f (j + 1))) →
      List.Chain' R ((List.range' s n).map f) := by
  intro n
  induction n with
  | zero => intro s _; simp
  | succ m ih =>
    intro s hR
    rw [List.range'_succ, List.map_cons]
    cases m with
    | zero => simp
    | succ m' =>
      refine List.chain'_cons'.mpr ⟨?_, ih (s + 1) (fun j hj1 hj2 => hR j (by omega) (by omega))⟩
      intro b hb
      rw [List.range'_succ, List.map_cons, List.head?_cons] at hb
      simp only [Option.mem_def, Option.some.injEq] at hb
      rw [← hb]
      exact hR s (le_refl s) (by omega)

theorem finishChunksAt_T0map (a : AggMetric) (pos now : Nat) :
    (finishChunksAt a pos now).map Chunk.T0 = a.Chunks.map Chunk.T0 :=
  T0map_set_T0_preserving _ _ _ rfl

theorem T0_logical_mono (a : AggMetric) (hord : RingSequential a) (i j : Nat)
    (hij : i ≤ j) (hj : j < a.Chunks.length) :
    T0at a (logicalIdx a i) ≤ T0at a (logicalIdx a j) := by
  rcases Nat.eq_or_lt_of_le hij with h | h
  · rw [h]
  · exact le_of_lt (hord j hj i h)

/-! ## Claim C3 -/

/-- C3: `persist(pos)` on a state satisfying the sequential-`t0` ring invariant
finishes the chunk at `pos`; on a primary it enqueues that chunk together with
exactly the contiguous backward run of older unsaved/unsaving chunks (stopping
at the first chunk that is saved, saving, or not older), submits the requests
oldest-first so the `t0`s handed to the store are non-decreasing, and raises
`Saving` on every submitted slot while leaving all other slots untouched; on a
secondary it only finishes the chunk and enqueues nothing. -/
theorem C3_persist_characterisation (a : AggMetric) (pos now : Nat) (pr : Bool)
    (hpos : pos < a.Chunks.length) (hcp : a.CurrentChunkPos < a.Chunks.length)
    (hord : RingSequential a) :
    (pr = false → a.persist pos now false = { a with Chunks := finishChunksAt a pos now }) ∧
    (pr = true → ∃ k, k ≤ a.Chunks.length - 1 ∧
      (∀ j, j < k → pendCond (a.Chunks.getD pos default).T0
        ((finishChunksAt a pos now).getD (backPos pos a.Chunks.length j) default)) ∧
      ¬pendCond (a.Chunks.getD pos default).T0
        ((finishChunksAt a pos now).getD (backPos pos a.Chunks.length k) default) ∧
      (a.persist pos now true).storeLog = a.storeLog ++
        ((backPosList pos a.Chunks.length k).reverse ++ [pos]).map
          (reqFor a now (finishChunksAt a pos now)) ∧
      List.Chain' (fun r s => r.chunk.T0 ≤ s.chunk.T0)
        (((backPosList pos a.Chunks.length k).reverse ++ [pos]).map
          (reqFor a now (finishChunksAt a pos now))) ∧
      (∀ p ∈ (backPosList pos a.Chunks.length k).reverse ++ [pos],
        (a.persist pos now true).Chunks.getD p default =
          { (finishChunksAt a pos now).getD p default with Saving := true }) ∧
      (∀ q, q ∉ (backPosList pos a.Chunks.length k).reverse ++ [pos] →
        (a.persist pos now true).Chunks.getD q default =
          (finishChunksAt a pos now).getD q default) ∧
      ((a.persist pos now true).Chunks.getD pos default).Finished = true) := by
  have hfin : finishChunksAt a pos now =
      a.Chunks.set pos ((a.Chunks.getD pos default).Finish now) := rfl
  have hlenf : (finishChunksAt a pos now).length = a.Chunks.length := by
    rw [hfin]
    simp
  have hT0f : ∀ q, ((finishChunksAt a pos now).getD q default).T0 =
      (a.Chunks.getD q default).T0 :=
    T0_getD_of_map_eq _ _ (finishChunksAt_T0map a pos now)
  have hgds : (finishChunksAt a pos now).getD pos default =
      (a.Chunks.getD pos default).Finish now := by
    rw [hfin]
    exact getD_set_self _ _ _ hpos
  constructor
  · intro _
    unfold AggMetric.persist
    rfl
  · intro _
    obtain ⟨idx, hidx, hidxeq⟩ := logicalIdx_surj a pos hpos
    have hlen0 : a.Chunks.length ≠ 0 := by omega
    have hstop : ¬(((finishChunksAt a pos now).getD pos default).T0 <
        (a.Chunks.getD pos default).T0 ∧
        ((finishChunksAt a pos now).getD pos default).Saved = false ∧
        ((finishChunksAt a pos now).getD pos default).Saving = false) := by
      rw [hgds]
      intro hx
      have : (a.Chunks.getD pos default).T0 < (a.Chunks.getD pos default).T0 := hx.1
      omega
    obtain ⟨k, hk, hcollect, hrun, hstopk⟩ :=
      collectPending_full (finishChunksAt a pos now) ((a.Chunks.getD pos default).T0) pos
        (by rw [hlenf]; exact hpos) hstop
    rw [hlenf] at hk hcollect hrun hstopk
    have hbpi : backPos pos a.Chunks.length idx = a.CurrentChunkPos := by
      rw [← hidxeq]
      exact backPos_logicalIdx_self a idx hidx hcp
    have hkidx : k ≤ idx := by
      by_contra hgt
      push_neg at hgt
      have hc := hrun idx hgt
      rw [hbpi, hT0f] at hc
      have h2 := T0_logical_mono a hord idx (a.Chunks.length - 1) (by omega) (by omega)
      rw [logicalIdx_last a hcp, hidxeq] at h2
      unfold T0at at h2
      have h3 := hc.1
      omega
    have hbp : ∀ j, j < k → backPos pos a.Chunks.length j = logicalIdx a (idx - 1 - j) := by
      intro j hj
      rw [← hidxeq]
      exact backPos_logicalIdx a idx j hidx (by omega)
    have hposmem : ∀ j, j < k → backPos pos a.Chunks.length j ≠ pos := by
      intro j hj h
      rw [hbp j hj, ← hidxeq] at h
      have := logicalIdx_inj a (idx - 1 - j) idx (by omega) hidx h
      omega
    have hnodup : ((backPosList pos a.Chunks.length k).reverse ++ [pos]).Nodup := by
      rw [List.nodup_append]
      refine ⟨List.nodup_reverse.mpr ?_, List.nodup_singleton pos, ?_⟩
      · unfold backPosList
        refine List.Nodup.map_on ?_ (List.nodup_range k)
        intro x hx y hy hxy
        rw [List.mem_range] at hx hy
        rw [hbp x hx, hbp y hy] at hxy
        have := logicalIdx_inj a (idx - 1 - x) (idx - 1 - y) (by omega) (by omega) hxy
        omega
      · intro p hp hp2
        rw [List.mem_reverse] at hp
        unfold backPosList at hp
        rw [List.mem_map] at hp
        obtain ⟨j, hj, hje⟩ := hp
        rw [List.mem_range] at hj
        rcases List.mem_singleton.mp hp2 with rfl
        exact hposmem j hj hje
    have hbounds : ∀ p ∈ (backPosList pos a.Chunks.length k).reverse ++ [pos],
        p < a.Chunks.length := by
      intro p hp
      rcases List.mem_append.mp hp with h | h
      · rw [List.mem_reverse] at h
        unfold backPosList at h
        rw [List.mem_map] at h
        obtain ⟨j, -, hje⟩ := h
        rw [← hje]
        exact backPos_lt pos a.Chunks.length j hlen0
      · rcases List.mem_singleton.mp h with rfl
        exact hpos
    have hpersist : a.persist pos now true =
        ((backPosList pos a.Chunks.length k).reverse ++ [pos]).foldl (submitOne now)
          { a with Chunks := finishChunksAt a pos now } := by
      unfold AggMetric.persist
      rw [if_neg (by simp)]
      rw [show ((a.Chunks.getD pos default).Finish now).T0 =
        (a.Chunks.getD pos default).T0 from rfl]
      rw [hlenf, hcollect]
    obtain ⟨hlog, hmark, hframe⟩ := foldl_submitOne_spec now
      ((backPosList pos a.Chunks.length k).reverse ++ [pos])
      { a with Chunks := finishChunksAt a pos now } hnodup
      (by intro p hp; show p < (finishChunksAt a pos now).length; rw [hlenf]; exact hbounds p hp)
    have hdec : ∀ j, j + 1 < k →
        ((finishChunksAt a pos now).getD (backPos pos a.Chunks.length (j + 1)) default).T0 <
          ((finishChunksAt a pos now).getD (backPos pos a.Chunks.length j) default).T0 := by
      intro j hj
      rw [hT0f, hT0f, hbp (j + 1) (by omega), hbp j (by omega)]
      have := hord (idx - 1 - j) (by omega) (idx - 1 - (j + 1)) (by omega)
      unfold T0at at this
      exact this
    refine ⟨k, hk, ?_, ?_, ?_, ?_, ?_, ?_, ?_⟩
    · intro j hj
      exact hrun j hj
    · exact hstopk
    · rw [hpersist, hlog]
      rfl
    · refine (List.chain'_map (reqFor a now (finishChunksAt a pos now))).mpr ?_
      refine List.chain'_append.mpr ⟨?_, List.chain'_singleton pos, ?_⟩
      · refine List.chain'_reverse.mpr ?_
        unfold backPosList
        rw [List.range_eq_range']
        refine chain_map_range _ _ k 0 ?_
        intro j hj1 hj2
        show ((finishChunksAt a pos now).getD (backPos pos a.Chunks.length (j + 1))
            default).T0 ≤ _
        exact le_of_lt (hdec j (by omega))
      · intro x hx y hy
        rw [List.getLast?_reverse] at hx
        cases hkz : k with
        | zero =>
          rw [hkz] at hx
          simp [backPosList] at hx
        | succ k2 =>
          rw [hkz] at hx
          unfold backPosList at hx
          rw [List.range_succ_eq_map, List.map_cons, List.head?_cons] at hx
          simp only [Option.mem_def, Option.some.injEq] at hx
          rcases List.mem_singleton.mp (by simpa using hy) with rfl
          rw [← hx]
          show ((finishChunksAt a pos now).getD (backPos pos a.Chunks.length 0) default).T0 ≤
            ((finishChunksAt a pos now).getD pos default).T0
          have h0 := (hrun 0 (by omega)).1
          rw [hT0f pos]
          exact le_of_lt h0
    · intro p hp
      rw [hpersist]
      exact hmark p hp
    · intro q hq
      rw [hpersist]
      exact hframe q hq
    · rw [hpersist]
      rw [hmark pos (List.mem_append.mpr (Or.inr (List.mem_singleton_self pos)))]
      rw [hgds]
      rfl

/-- Witness for C3: a concrete one-chunk primary state; the persist call
enqueues exactly the finished current chunk and marks it finished. -/
theorem C3_persist_characterisation_witness :
    0 < (oneChunkState (freshChunk 60 100 1 5)).Chunks.length ∧
    (oneChunkState (freshChunk 60 100 1 5)).CurrentChunkPos <
      (oneChunkState (freshChunk 60 100 1 5)).Chunks.length ∧
    RingSequential (oneChunkState (freshChunk 60 100 1 5)) ∧
    ((oneChunkState (freshChunk 60 100 1 5)).persist 0 7 true).storeLog =
      [reqFor (oneChunkState (freshChunk 60 100 1 5)) 7
        (finishChunksAt (oneChunkState (freshChunk 60 100 1 5)) 0 7) 0] ∧
    (((oneChunkState (freshChunk 60 100 1 5)).persist 0 7 true).Chunks.getD 0
      default).Finished = true := by
  have h := C3_persist_characterisation (oneChunkState (freshChunk 60 100 1 5)) 0 7 true
    (by decide) (by decide) (by decide)
  obtain ⟨k, hk, -, -, hlog, -, -, -, hfin⟩ := h.2 rfl
  have hlen : (oneChunkState (freshChunk 60 100 1 5)).Chunks.length = 1 := rfl
  have hk0 : k = 0 := by omega
  subst hk0
  refine ⟨by decide, by decide, by decide, ?_, hfin⟩
  rw [hlog]
  rfl

/-! ## Claim C6: the `Get` machinery on a well-formed ring -/

theorem wrapStep_eq (p len : Nat) (hp : p < len) :
    (if p + 1 ≥ len then 0 else p + 1) = (p + 1) % len := by
  by_cases h : p + 1 ≥ len
  · rw [if_pos h]
    have h1 : p + 1 = len := by omega
    rw [h1, Nat.mod_self]
  · rw [if_neg h, Nat.mod_eq_of_lt (by omega)]

theorem logicalIdx_step (a : AggMetric) (i : Nat) :
    (logicalIdx a i + 1) % a.Chunks.length = logicalIdx a (i + 1) := by
  unfold logicalIdx
  rw [Nat.mod_add_mod]
  congr 1

theorem oldestPos0_eq_logical (a : AggMetric) (hcp : a.CurrentChunkPos < a.Chunks.length) :
    a.oldestPos0 = logicalIdx a 0 := by
  unfold AggMetric.oldestPos0 logicalIdx
  rw [wrapStep_eq _ _ hcp]

theorem maskedOldest_primary (a : AggMetric) : a.maskedOldestPos true = a.oldestPos0 := by
  unfold AggMetric.maskedOldestPos
  rw [if_neg (by simp)]

theorem logicalIdx_warmup (a : AggMetric) (h : a.CurrentChunkPos + 1 = a.Chunks.length)
    (i : Nat) (hi : i < a.Chunks.length) : logicalIdx a i = i := by
  unfold logicalIdx
  rw [h, Nat.add_mod_left, Nat.mod_eq_of_lt hi]

theorem advanceOldest_succ (chunks : List Chunk) (span frm p f : Nat) :
    advanceOldest chunks span frm p (f + 1) =
      match chunks[p]? with
      | none => .nilChunk
      | some c =>
        if c.T0 + span ≤ frm then
          advanceOldest chunks span frm (if p + 1 ≥ chunks.length then 0 else p + 1) f
        else .found p := rfl

theorem walkNewest_succ (chunks : List Chunk) (toTs p f : Nat) :
    walkNewest chunks toTs p (f + 1) =
      match chunks[p]? with
      | none => .nilChunk
      | some c =>
        if toTs ≤ c.T0 then
          walkNewest chunks toTs (if p = 0 then chunks.length - 1 else p - 1) f
        else .found p := rfl

theorem emitIters_succ (chunks : List Chunk) (numChunks stopPos p f : Nat) :
    emitIters chunks numChunks stopPos p (f + 1) =
      match chunks[p]? with
      | none => none
      | some c =>
        if p = stopPos then some [c.Iter]
        else
          match emitIters chunks numChunks stopPos
              (if p + 1 ≥ numChunks then 0 else p + 1) f with
          | none => none
          | some rest => some (c.Iter :: rest) := rfl

theorem advanceOldest_run (a : AggMetric) (span frm m : Nat)
    (hm : m < a.Chunks.length)
    (hstop : ¬ ((a.Chunks.getD (logicalIdx a m) default).T0 + span ≤ frm)) :
    ∀ f i, i ≤ m → m - i < f →
      (∀ j, i ≤ j → j < m → (a.Chunks.getD (logicalIdx a j) default).T0 + span ≤ frm) →
      advanceOldest a.Chunks span frm (logicalIdx a i) f = .found (logicalIdx a m) := by
  intro f
  induction f with
  | zero =>
    intro i him hf hcond
    exact absurd hf (Nat.not_lt_zero _)
  | succ f ih =>
    intro i him hf hcond
    have hlen0 : a.Chunks.length ≠ 0 := by omega
    have hilt : logicalIdx a i < a.Chunks.length := logicalIdx_lt a i hlen0
    have hstep : advanceOldest a.Chunks span frm (logicalIdx a i) (f + 1) =
        if (a.Chunks.getD (logicalIdx a i) default).T0 + span ≤ frm then
          advanceOldest a.Chunks span frm
            (if logicalIdx a i + 1 ≥ a.Chunks.length then 0 else logicalIdx a i + 1) f
        else .found (logicalIdx a i) := by
      rw [advanceOldest_succ, getD_eq_getElem?_some _ _ hilt]
    rw [hstep]
    by_cases hi : i = m
    · subst hi
      rw [if_neg hstop]
    · have hi' : i < m := by omega
      rw [if_pos (hcond i (le_refl i) hi')]
      rw [wrapStep_eq _ _ hilt, logicalIdx_step]
      exact ih (i + 1) (by omega) (by omega) (fun j hj1 hj2 => hcond j (by omega) hj2)

theorem walkNewest_found (a : AggMetric) (toTs f : Nat)
    (hcp : a.CurrentChunkPos < a.Chunks.length)
    (hno : ¬ (toTs ≤ (a.Chunks.getD a.CurrentChunkPos default).T0)) :
    walkNewest a.Chunks toTs a.CurrentChunkPos (f + 1) = .found a.CurrentChunkPos := by
  have hstep : walkNewest a.Chunks toTs a.CurrentChunkPos (f + 1) =
      if toTs ≤ (a.Chunks.getD a.CurrentChunkPos default).T0 then
        walkNewest a.Chunks toTs
          (if a.CurrentChunkPos = 0 then a.Chunks.length - 1 else a.CurrentChunkPos - 1) f
      else .found a.CurrentChunkPos := by
    rw [walkNewest_succ, getD_eq_getElem?_some _ _ hcp]
  rw [hstep, if_neg hno]

theorem range_map_shift {α : Type} (g : Nat → α) (n : Nat) :
    (List.range (n + 1)).map g = g 0 :: (List.range n).map (fun j => g (j + 1)) := by
  rw [List.range_succ_eq_map, List.map_cons, List.map_map]
  rfl

theorem emitIters_run (a : AggMetric) (n : Nat)
    (hcp : a.CurrentChunkPos < a.Chunks.length)
    (hshape : a.Chunks.length = a.NumChunks ∨ a.CurrentChunkPos + 1 = a.Chunks.length)
    (hlenle : a.Chunks.length ≤ a.NumChunks) (hn : n < a.Chunks.length) :
    ∀ f i, i ≤ n → n - i < f →
      emitIters a.Chunks a.NumChunks (logicalIdx a n) (logicalIdx a i) f =
        some ((List.range (n + 1 - i)).map
          (fun j => (a.Chunks.getD (logicalIdx a (i + j)) default).Iter)) := by
  intro f
  induction f with
  | zero =>
    intro i hi hf
    exact absurd hf (Nat.not_lt_zero _)
  | succ f ih =>
    intro i hi hf
    have hlen0 : a.Chunks.length ≠ 0 := by omega
    have hilt : logicalIdx a i < a.Chunks.length := logicalIdx_lt a i hlen0
    have hstep : emitIters a.Chunks a.NumChunks (logicalIdx a n) (logicalIdx a i) (f + 1) =
        if logicalIdx a i = logicalIdx a n then
          some [(a.Chunks.getD (logicalIdx a i) default).Iter]
        else
          match emitIters a.Chunks a.NumChunks (logicalIdx a n)
              (if logicalIdx a i + 1 ≥ a.NumChunks then 0 else logicalIdx a i + 1) f with
          | none => none
          | some rest => some ((a.Chunks.getD (logicalIdx a i) default).Iter :: rest) := by
      rw [emitIters_succ, getD_eq_getElem?_some _ _ hilt]
    rw [hstep]
    by_cases hieq : i = n
    · subst hieq
      rw [if_pos rfl]
      rw [show i + 1 - i = 1 from by omega]
      rfl
    · have hi1 : i + 1 ≤ n := by omega
      have hne2 : logicalIdx a i ≠ logicalIdx a n := by
        intro h
        exact hieq (logicalIdx_inj a i n (by omega) (by omega) h)
      rw [if_neg hne2]
      have hstep2 : (if logicalIdx a i + 1 ≥ a.NumChunks then 0 else logicalIdx a i + 1) =
          logicalIdx a (i + 1) := by
        rcases hshape with hfull | hwarm
        · rw [← hfull, wrapStep_eq _ _ hilt, logicalIdx_step]
        · rw [logicalIdx_warmup a hwarm i (by omega),
            logicalIdx_warmup a hwarm (i + 1) (by omega)]
          rw [if_neg (by omega)]
      rw [hstep2, ih (i + 1) hi1 (by omega)]
      show some ((a.Chunks.getD (logicalIdx a i) default).Iter ::
        (List.range (n + 1 - (i + 1))).map
          (fun j => (a.Chunks.getD (logicalIdx a (i + 1 + j)) default).Iter)) = _
      have h1 : n + 1 - i = (n + 1 - (i + 1)) + 1 := by omega
      rw [h1, range_map_shift]
      congr 1
      congr 1
      refine List.map_congr_left (fun j hj => ?_)
      have h2 : i + 1 + j = i + (j + 1) := by omega
      rw [h2]

theorem RingSequential_of_T0map (a a' : AggMetric)
    (hmap : a'.Chunks.map Chunk.T0 = a.Chunks.map Chunk.T0)
    (hcpe : a'.CurrentChunkPos = a.CurrentChunkPos)
    (h : RingSequential a) : RingSequential a' := by
  have hlen : a'.Chunks.length = a.Chunks.length := length_eq_of_T0map_eq _ _ hmap
  intro j hj i hij
  have hT0 : ∀ p, T0at a' p = T0at a p := fun p => T0_getD_of_map_eq _ _ hmap p
  have hli : ∀ k, logicalIdx a' k = logicalIdx a k := by
    intro k
    unfold logicalIdx
    rw [hcpe, hlen]
  rw [hT0, hT0, hli, hli]
  exact h j (by omega) i hij


/-- Rollover with room (warm-up ring): `Add` persists, appends a fresh chunk and
pushes the sample into it. -/
theorem Add_roll_append (a : AggMetric) (ts : Nat) (v : Val) (now : Nat) (pr : Bool)
    (hcp : a.CurrentChunkPos < a.Chunks.length)
    (hgt : (a.Chunks.getD a.CurrentChunkPos default).T0 < ts - ts % a.ChunkSpan)
    (hwarm : a.CurrentChunkPos + 1 = a.Chunks.length)
    (hl : a.Chunks.length < a.NumChunks) :
    a.Add ts v now pr = some (rollAppendState a ts v now pr) := by
  obtain ⟨-, hbcp, hbnum, -, -, -, -, -, -, -, hblen⟩ :=
    persist_frame a a.CurrentChunkPos now pr
  unfold AggMetric.Add
  rw [getChunk_eq_some a _ hcp]
  simp only [if_neg (by omega : ¬(ts - ts % a.ChunkSpan =
      (a.Chunks.getD a.CurrentChunkPos default).T0)),
    if_neg (by omega : ¬(ts - ts % a.ChunkSpan <
      (a.Chunks.getD a.CurrentChunkPos default).T0))]
  rw [show (if (a.persist a.CurrentChunkPos now pr).CurrentChunkPos + 1 ≥
      (a.persist a.CurrentChunkPos now pr).NumChunks then 0
      else (a.persist a.CurrentChunkPos now pr).CurrentChunkPos + 1) =
      a.CurrentChunkPos + 1 from by
    rw [hbcp, hbnum]
    rw [if_neg (by omega)]]
  rw [if_pos (show (a.persist a.CurrentChunkPos now pr).Chunks.length <
      (a.persist a.CurrentChunkPos now pr).NumChunks from by rw [hblen, hbnum]; exact hl)]
  have hgd : ((a.persist a.CurrentChunkPos now pr).Chunks ++
      [NewChunk (ts - ts % a.ChunkSpan)]).getD (a.CurrentChunkPos + 1) default =
      NewChunk (ts - ts % a.ChunkSpan) := by
    rw [show a.CurrentChunkPos + 1 = (a.persist a.CurrentChunkPos now pr).Chunks.length
      from by omega]
    exact getD_append_right_self _ _
  rw [hgd]
  rw [show (NewChunk (ts - ts % a.ChunkSpan)).Push ts v now =
    some (freshChunk (ts - ts % a.ChunkSpan) ts v now) from rfl]
  rfl

/-- Rollover on a full ring: `Add` persists, overwrites the next slot (wrapping)
with a fresh chunk and pushes the sample into it. -/
theorem Add_roll_overwrite (a : AggMetric) (ts : Nat) (v : Val) (now : Nat) (pr : Bool)
    (hcp : a.CurrentChunkPos < a.Chunks.length)
    (hgt : (a.Chunks.getD a.CurrentChunkPos default).T0 < ts - ts % a.ChunkSpan)
    (hfull : a.Chunks.length = a.NumChunks) :
    a.Add ts v now pr = some (rollOverwriteState a ts v now pr) := by
  obtain ⟨-, hbcp, hbnum, -, -, -, -, -, -, -, hblen⟩ :=
    persist_frame a a.CurrentChunkPos now pr
  unfold AggMetric.Add
  rw [getChunk_eq_some a _ hcp]
  simp only [if_neg (by omega : ¬(ts - ts % a.ChunkSpan =
      (a.Chunks.getD a.CurrentChunkPos default).T0)),
    if_neg (by omega : ¬(ts - ts % a.ChunkSpan <
      (a.Chunks.getD a.CurrentChunkPos default).T0))]
  rw [show (if (a.persist a.CurrentChunkPos now pr).CurrentChunkPos + 1 ≥
      (a.persist a.CurrentChunkPos now pr).NumChunks then 0
      else (a.persist a.CurrentChunkPos now pr).CurrentChunkPos + 1) =
      (a.CurrentChunkPos + 1) % a.Chunks.length from by
    rw [hbcp, hbnum, ← hfull]
    exact wrapStep_eq _ _ hcp]
  rw [if_neg (show ¬ ((a.persist a.CurrentChunkPos now pr).Chunks.length <
      (a.persist a.CurrentChunkPos now pr).NumChunks) from by rw [hblen, hbnum]; omega)]
  rw [getD_set_self _ _ _ (by rw [hblen]; exact Nat.mod_lt _ (by omega))]
  rw [show (NewChunk (ts - ts % a.ChunkSpan)).Push ts v now =
    some (freshChunk (ts - ts % a.ChunkSpan) ts v now) from rfl]
  rfl

/-- An accepted, ingesting `Add` on an invariant state: the result keeps the
invariant and its current chunk owns the sample (`t0 = ts - ts%span`, point
recorded). -/
theorem Add_accept_current (a : AggMetric) (ts : Nat) (v : Val) (now : Nat) (pr : Bool)
    (hinv : AggInv a)
    (hacc : a.Chunks.length = 0 ∨
      (ts - ts % a.ChunkSpan = (a.Chunks.getD a.CurrentChunkPos default).T0 ∧
        (a.Chunks.getD a.CurrentChunkPos default).Saved = false ∧
        (a.Chunks.getD a.CurrentChunkPos default).Finished = false) ∨
      (a.Chunks.getD a.CurrentChunkPos default).T0 < ts - ts % a.ChunkSpan) :
    ∃ a', a.Add ts v now pr = some a' ∧ AggInv a' ∧
      a'.ChunkSpan = a.ChunkSpan ∧ a'.Chunks.length ≠ 0 ∧
      (a'.Chunks.getD a'.CurrentChunkPos default).T0 = ts - ts % a.ChunkSpan ∧
      (ts, v) ∈ (a'.Chunks.getD a'.CurrentChunkPos default).Points := by
  obtain ⟨hemp, hcpb, hlenle, hnum1, hspan, hshape0, hord⟩ := hinv
  by_cases hlen : a.Chunks.length = 0
  · have hcp0 : a.CurrentChunkPos = 0 := hemp hlen
    refine ⟨_, Add_empty a ts v now pr hlen, ?_, rfl, by simp, ?_, ?_⟩
    · refine ⟨?_, ?_, ?_, hnum1, hspan, ?_, ?_⟩
      · intro h
        simp at h
      · intro _
        simp [hcp0]
      · simpa using hnum1
      · right
        left
        simp [hcp0]
      · intro j hj i hij
        simp only [List.length_singleton] at hj
        exact absurd hij (by omega)
    · simp [hcp0, freshChunk]
    · simp [hcp0, freshChunk]
  · have hcp := hcpb hlen
    rcases hacc with h0 | ⟨ht, hs, hf⟩ | hgt
    · exact absurd h0 hlen
    · refine ⟨_, Add_same_push a ts v now pr hcp ht hs hf, ?_, rfl, ?_, ?_, ?_⟩
      · refine ⟨?_, ?_, ?_, hnum1, hspan, ?_, ?_⟩
        · intro h
          exact absurd (by simpa using h) hlen
        · intro _
          simpa using hcp
        · simpa using hlenle
        · rcases hshape0 with h | h | h
          · left
            simpa using h
          · right
            left
            simpa using h
          · exact absurd h hlen
        · exact RingSequential_of_T0map a _ (T0map_set_T0_preserving _ _ _ rfl) rfl hord
      · intro h
        exact hlen (by simpa using h)
      · show ((a.Chunks.set a.CurrentChunkPos _).getD a.CurrentChunkPos default).T0 = _
        rw [getD_set_self _ _ _ hcp]
        exact ht.symm
      · show (ts, v) ∈ ((a.Chunks.set a.CurrentChunkPos _).getD a.CurrentChunkPos
          default).Points
        rw [getD_set_self _ _ _ hcp]
        simp
    · obtain ⟨-, hbcp, hbnum, hbspan, -, -, -, -, -, -, hblen⟩ :=
        persist_frame a a.CurrentChunkPos now pr
      have hbT0 : ∀ p, ((a.persist a.CurrentChunkPos now pr).Chunks.getD p default).T0 =
          (a.Chunks.getD p default).T0 :=
        T0_getD_of_map_eq _ _ (persist_T0map a a.CurrentChunkPos now pr)
      have htop : ∀ p, p < a.Chunks.length →
          (a.Chunks.getD p default).T0 ≤ (a.Chunks.getD a.CurrentChunkPos default).T0 := by
        intro p hp
        obtain ⟨i, hi, hieq⟩ := logicalIdx_surj a p hp
        have h5 := T0_logical_mono a hord i (a.Chunks.length - 1) (by omega) (by omega)
        rw [logicalIdx_last a hcp, hieq] at h5
        unfold T0at at h5
        exact h5
      by_cases hl : a.Chunks.length < a.NumChunks
      · have hwarm : a.CurrentChunkPos + 1 = a.Chunks.length := by
          rcases hshape0 with h | h | h
          · omega
          · exact h
          · exact absurd h hlen
        have hlid : ∀ i, i < a.Chunks.length → logicalIdx a i = i := fun i hi =>
          logicalIdx_warmup a hwarm i hi
        refine ⟨_, Add_roll_append a ts v now pr hcp hgt hwarm hl, ?_, hbspan, ?_, ?_, ?_⟩
        all_goals {
          have hchF : (rollAppendState a ts v now pr).Chunks =
              ((a.persist a.CurrentChunkPos now pr).Chunks ++
                [NewChunk (ts - ts % a.ChunkSpan)]).set (a.CurrentChunkPos + 1)
                (freshChunk (ts - ts % a.ChunkSpan) ts v now) := rfl
          have hcpF : (rollAppendState a ts v now pr).CurrentChunkPos =
              a.CurrentChunkPos + 1 := rfl
          have hnumF : (rollAppendState a ts v now pr).NumChunks = a.NumChunks := hbnum
          have hspanF : (rollAppendState a ts v now pr).ChunkSpan = a.ChunkSpan := hbspan
          have hlenF : (rollAppendState a ts v now pr).Chunks.length =
              a.Chunks.length + 1 := by
            rw [hchF]
            simp [hblen]
          have hgtop : (rollAppendState a ts v now pr).Chunks.getD
              (a.CurrentChunkPos + 1) default =
              freshChunk (ts - ts % a.ChunkSpan) ts v now := by
            rw [hchF]
            exact getD_set_self _ _ _
              (by simp only [List.length_append, List.length_singleton, hblen]; omega)
          have hgold : ∀ p, p < a.Chunks.length →
              ((rollAppendState a ts v now pr).Chunks.getD p default).T0 =
                (a.Chunks.getD p default).T0 := by
            intro p hp
            rw [hchF, getD_set_ne _ _ _ _ (by omega),
              getD_append_left _ _ _ (by rw [hblen]; exact hp)]
            exact hbT0 p
          first
          | -- AggInv
            (refine ⟨?_, ?_, ?_, ?_, ?_, ?_, ?_⟩
             · intro h
               rw [hlenF] at h
               exact absurd h (by omega)
             · intro _
               rw [hcpF, hlenF]
               omega
             · rw [hlenF, hnumF]
               omega
             · rw [hnumF]
               exact hnum1
             · rw [hspanF]
               exact hspan
             · right
               left
               rw [hcpF, hlenF]
               omega
             · intro j hj i hij
               rw [hlenF] at hj
               have hlidF : ∀ k, k < a.Chunks.length + 1 →
                   logicalIdx (rollAppendState a ts v now pr) k = k := by
                 intro k hk
                 refine logicalIdx_warmup _ ?_ k ?_
                 · rw [hcpF, hlenF]
                   omega
                 · rw [hlenF]
                   exact hk
               unfold T0at
               rw [hlidF j hj, hlidF i (by omega)]
               by_cases hjtop : j = a.Chunks.length
               · subst hjtop
                 rw [show a.Chunks.length = a.CurrentChunkPos + 1 from hwarm.symm, hgtop]
                 show ((rollAppendState a ts v now pr).Chunks.getD i default).T0 <
                   ts - ts % a.ChunkSpan
                 rw [hgold i (by omega)]
                 have := htop i (by omega)
                 omega
               · have hj' : j < a.Chunks.length := by omega
                 rw [hgold j hj', hgold i (by omega)]
                 have h6 := hord j (by omega) i hij
                 unfold T0at at h6
                 rw [hlid j hj', hlid i (by omega)] at h6
                 exact h6)
          | -- length nonzero
            (rw [hlenF]; omega; done)
          | -- membership
            (rw [hcpF, hgtop]; simp [freshChunk]; done)
          | -- current chunk t0
            (rw [hcpF, hgtop]; done)
        }
      · have hfull : a.Chunks.length = a.NumChunks := by omega
        have hlen0 : a.Chunks.length ≠ 0 := hlen
        have hnplt : (a.CurrentChunkPos + 1) % a.Chunks.length < a.Chunks.length :=
          Nat.mod_lt _ (by omega)
        refine ⟨_, Add_roll_overwrite a ts v now pr hcp hgt hfull, ?_, hbspan, ?_, ?_, ?_⟩
        all_goals {
          have hchF : (rollOverwriteState a ts v now pr).Chunks =
              (((a.persist a.CurrentChunkPos now pr).Chunks.set
                  ((a.CurrentChunkPos + 1) % a.Chunks.length)
                  (NewChunk (ts - ts % a.ChunkSpan))).set
                ((a.CurrentChunkPos + 1) % a.Chunks.length)
                (freshChunk (ts - ts % a.ChunkSpan) ts v now)) := rfl
          have hcpF : (rollOverwriteState a ts v now pr).CurrentChunkPos =
              (a.CurrentChunkPos + 1) % a.Chunks.length := rfl
          have hnumF : (rollOverwriteState a ts v now pr).NumChunks = a.NumChunks := hbnum
          have hspanF : (rollOverwriteState a ts v now pr).ChunkSpan = a.ChunkSpan := hbspan
          have hlenF : (rollOverwriteState a ts v now pr).Chunks.length =
              a.Chunks.length := by
            rw [hchF]
            simp [hblen]
          have hgtop : (rollOverwriteState a ts v now pr).Chunks.getD
              ((a.CurrentChunkPos + 1) % a.Chunks.length) default =
              freshChunk (ts - ts % a.ChunkSpan) ts v now := by
            rw [hchF]
            exact getD_set_self _ _ _ (by rw [List.length_set, hblen]; exact hnplt)
          have hgold : ∀ p, p < a.Chunks.length →
              p ≠ (a.CurrentChunkPos + 1) % a.Chunks.length →
              ((rollOverwriteState a ts v now pr).Chunks.getD p default).T0 =
                (a.Chunks.getD p default).T0 := by
            intro p hp hne2
            rw [hchF, getD_set_ne _ _ _ _ (by omega), getD_set_ne _ _ _ _ (by omega)]
            exact hbT0 p
          first
          | -- AggInv
            (have hlidF : ∀ i, logicalIdx (rollOverwriteState a ts v now pr) i =
                 logicalIdx a (i + 1) := by
               intro i
               show ((a.CurrentChunkPos + 1) % a.Chunks.length + 1 + i) %
                 (rollOverwriteState a ts v now pr).Chunks.length = _
               rw [hlenF, Nat.add_assoc ((a.CurrentChunkPos + 1) % a.Chunks.length) 1 i,
                 Nat.mod_add_mod]
               unfold logicalIdx
               congr 1
               omega
             have hne0 : ∀ k, k < a.Chunks.length → k ≠ 0 →
                 logicalIdx a k ≠ (a.CurrentChunkPos + 1) % a.Chunks.length := by
               intro k hk hk0 h
               have h7 : logicalIdx a k = logicalIdx a 0 := by
                 rw [h]
                 show _ = (a.CurrentChunkPos + 1 + 0) % a.Chunks.length
                 rfl
               have := logicalIdx_inj a k 0 hk (by omega) h7
               omega
             have hlast2 : logicalIdx a (a.Chunks.length - 1 + 1) =
                 (a.CurrentChunkPos + 1) % a.Chunks.length := by
               unfold logicalIdx
               rw [show a.Chunks.length - 1 + 1 = a.Chunks.length from by omega,
                 Nat.add_mod_right]
             refine ⟨?_, ?_, ?_, ?_, ?_, ?_, ?_⟩
             · intro h
               rw [hlenF] at h
               exact absurd h hlen
             · intro _
               rw [hcpF, hlenF]
               exact hnplt
             · rw [hlenF, hnumF]
               omega
             · rw [hnumF]
               exact hnum1
             · rw [hspanF]
               exact hspan
             · left
               rw [hlenF, hnumF]
               exact hfull
             · intro j hj i hij
               rw [hlenF] at hj
               unfold T0at
               rw [hlidF j, hlidF i]
               by_cases hjtop : j = a.Chunks.length - 1
               · subst hjtop
                 rw [hlast2, hgtop]
                 show ((rollOverwriteState a ts v now pr).Chunks.getD
                   (logicalIdx a (i + 1)) default).T0 < ts - ts % a.ChunkSpan
                 rw [hgold (logicalIdx a (i + 1)) (logicalIdx_lt a (i + 1) hlen)
                   (hne0 (i + 1) (by omega) (by omega))]
                 have h5 := T0_logical_mono a hord (i + 1) (a.Chunks.length - 1)
                   (by omega) (by omega)
                 rw [logicalIdx_last a hcp] at h5
                 unfold T0at at h5
                 omega
               · have hj1 : j + 1 < a.Chunks.length := by omega
                 rw [hgold (logicalIdx a (j + 1)) (logicalIdx_lt a (j + 1) hlen)
                     (hne0 (j + 1) (by omega) (by omega)),
                   hgold (logicalIdx a (i + 1)) (logicalIdx_lt a (i + 1) hlen)
                     (hne0 (i + 1) (by omega) (by omega))]
                 have h6 := hord (j + 1) hj1 (i + 1) (by omega)
                 unfold T0at at h6
                 exact h6)
          | -- length nonzero
            (rw [hlenF]; exact hlen; done)
          | -- membership
            (rw [hcpF, hgtop]; simp [freshChunk]; done)
          | -- current chunk t0
            (rw [hcpF, hgtop]; done)
        }


theorem logicalIdx_backstep (a : AggMetric) (i : Nat) (hi : 1 ≤ i)
    (hlen : a.Chunks.length ≠ 0) :
    (if logicalIdx a i = 0 then a.Chunks.length - 1 else logicalIdx a i - 1) =
      logicalIdx a (i - 1) := by
  have hp : logicalIdx a i < a.Chunks.length := logicalIdx_lt a i hlen
  have h1 : (if logicalIdx a i = 0 then a.Chunks.length - 1 else logicalIdx a i - 1) =
      (logicalIdx a i + a.Chunks.length - 1) % a.Chunks.length := by
    by_cases h : logicalIdx a i = 0
    · rw [if_pos h, h]
      rw [Nat.mod_eq_of_lt (by omega)]
      omega
    · rw [if_neg h]
      rw [show logicalIdx a i + a.Chunks.length - 1 =
        (logicalIdx a i - 1) + a.Chunks.length from by omega, Nat.add_mod_right,
        Nat.mod_eq_of_lt (by omega)]
  rw [h1]
  unfold logicalIdx
  rw [show (a.CurrentChunkPos + 1 + i) % a.Chunks.length + a.Chunks.length - 1 =
      (a.CurrentChunkPos + 1 + i) % a.Chunks.length + (a.Chunks.length - 1) from by omega,
    Nat.mod_add_mod,
    show a.CurrentChunkPos + 1 + i + (a.Chunks.length - 1) =
      (a.CurrentChunkPos + i) + a.Chunks.length from by omega,
    Nat.add_mod_right]
  congr 1
  omega

theorem walkNewest_run (a : AggMetric) (toTs n : Nat) (hn : n < a.Chunks.length)
    (hstop : ¬ (toTs ≤ (a.Chunks.getD (logicalIdx a n) default).T0)) :
    ∀ f i, n ≤ i → i < a.Chunks.length → i - n < f →
      (∀ j, n < j → j ≤ i → toTs ≤ (a.Chunks.getD (logicalIdx a j) default).T0) →
      walkNewest a.Chunks toTs (logicalIdx a i) f = .found (logicalIdx a n) := by
  intro f
  induction f with
  | zero =>
    intro i h1 h2 h3 h4
    exact absurd h3 (Nat.not_lt_zero _)
  | succ f ih =>
    intro i h1 h2 h3 h4
    have hlen0 : a.Chunks.length ≠ 0 := by omega
    have hilt : logicalIdx a i < a.Chunks.length := logicalIdx_lt a i hlen0
    have hstep : walkNewest a.Chunks toTs (logicalIdx a i) (f + 1) =
        if toTs ≤ (a.Chunks.getD (logicalIdx a i) default).T0 then
          walkNewest a.Chunks toTs
            (if logicalIdx a i = 0 then a.Chunks.length - 1 else logicalIdx a i - 1) f
        else .found (logicalIdx a i) := by
      rw [walkNewest_succ, getD_eq_getElem?_some _ _ hilt]
    rw [hstep]
    by_cases hin : i = n
    · subst hin
      rw [if_neg hstop]
    · have hni : n < i := by omega
      rw [if_pos (h4 i (by omega) (le_refl i))]
      rw [logicalIdx_backstep a i (by omega) hlen0]
      exact ih (i - 1) (by omega) (by omega) (by omega)
        (fun j hj1 hj2 => h4 j hj1 (by omega))

/-- On a primary query, a well-formed ring serves every chunk whose span covers
the queried instant: `Get ts (ts+1) true` succeeds and the iterator of the
chunk at logical index `q` is among the returned iterators. -/
theorem Get_serves_point (a : AggMetric) (ts q : Nat)
    (hinv : AggInv a) (hq : q < a.Chunks.length)
    (hle : (a.Chunks.getD (logicalIdx a q) default).T0 ≤ ts)
    (hlt : ts < (a.Chunks.getD (logicalIdx a q) default).T0 + a.ChunkSpan) :
    ∃ ms iters, a.Get ts (ts + 1) true = some (ms, iters) ∧
      (a.Chunks.getD (logicalIdx a q) default).Iter ∈ iters := by
  obtain ⟨hemp, hcpb, hlenle, hnum1, hspan, hshape0, hord⟩ := hinv
  have hlen0 : a.Chunks.length ≠ 0 := by omega
  have hcp : a.CurrentChunkPos < a.Chunks.length := hcpb hlen0
  have hshape : a.Chunks.length = a.NumChunks ∨ a.CurrentChunkPos + 1 = a.Chunks.length := by
    rcases hshape0 with h | h | h
    · exact Or.inl h
    · exact Or.inr h
    · exact absurd h hlen0
  have hown_cur : (a.Chunks.getD (logicalIdx a q) default).T0 ≤
      (a.Chunks.getD a.CurrentChunkPos default).T0 := by
    have h5 := T0_logical_mono a hord q (a.Chunks.length - 1) (by omega) (by omega)
    rw [logicalIdx_last a hcp] at h5
    unfold T0at at h5
    exact h5
  have hold_own : (a.Chunks.getD (logicalIdx a 0) default).T0 ≤
      (a.Chunks.getD (logicalIdx a q) default).T0 := by
    have h5 := T0_logical_mono a hord 0 q (by omega) (by omega)
    unfold T0at at h5
    exact h5
  have hexm : ∃ j, ts < (a.Chunks.getD (logicalIdx a j) default).T0 + a.ChunkSpan := ⟨q, hlt⟩
  set m := Nat.find hexm with hmdef
  have hmq : m ≤ q := Nat.find_min' hexm hlt
  have hm : m < a.Chunks.length := by omega
  have hstopm : ¬ ((a.Chunks.getD (logicalIdx a m) default).T0 + a.ChunkSpan ≤ ts) := by
    have h9 : ts < (a.Chunks.getD (logicalIdx a m) default).T0 + a.ChunkSpan :=
      Nat.find_spec hexm
    omega
  have hcondm : ∀ j, j < m →
      (a.Chunks.getD (logicalIdx a j) default).T0 + a.ChunkSpan ≤ ts := by
    intro j hj
    have := Nat.find_min hexm hj
    omega
  have hadv : advanceOldest a.Chunks a.ChunkSpan ts (logicalIdx a 0) a.Chunks.length =
      .found (logicalIdx a m) :=
    advanceOldest_run a a.ChunkSpan ts m hm hstopm a.Chunks.length 0 (by omega) (by omega)
      (fun j hj1 hj2 => hcondm j hj2)
  have hexn : ∃ i, (a.Chunks.getD (logicalIdx a (a.Chunks.length - 1 - i)) default).T0 ≤ ts :=
    ⟨a.Chunks.length - 1 - q, by
      rw [show a.Chunks.length - 1 - (a.Chunks.length - 1 - q) = q from by omega]
      exact hle⟩
  set i0 := Nat.find hexn with hi0def
  have hi0le : i0 ≤ a.Chunks.length - 1 - q :=
    Nat.find_min' hexn (by
      rw [show a.Chunks.length - 1 - (a.Chunks.length - 1 - q) = q from by omega]
      exact hle)
  have hqn : q ≤ a.Chunks.length - 1 - i0 := by omega
  have hn : a.Chunks.length - 1 - i0 < a.Chunks.length := by omega
  have hnT0 : (a.Chunks.getD (logicalIdx a (a.Chunks.length - 1 - i0)) default).T0 ≤ ts :=
    Nat.find_spec hexn
  have hstopn : ¬ (ts + 1 ≤
      (a.Chunks.getD (logicalIdx a (a.Chunks.length - 1 - i0)) default).T0) := by omega
  have hcondn : ∀ j, a.Chunks.length - 1 - i0 < j → j ≤ a.Chunks.length - 1 →
      ts + 1 ≤ (a.Chunks.getD (logicalIdx a j) default).T0 := by
    intro j hj1 hj2
    have hjlt : a.Chunks.length - 1 - j < i0 := by omega
    have h12 := Nat.find_min hexn hjlt
    rw [show a.Chunks.length - 1 - (a.Chunks.length - 1 - j) = j from by omega] at h12
    omega
  have hwalk : walkNewest a.Chunks (ts + 1) a.CurrentChunkPos a.Chunks.length =
      .found (logicalIdx a (a.Chunks.length - 1 - i0)) := by
    have h := walkNewest_run a (ts + 1) (a.Chunks.length - 1 - i0) hn hstopn
      a.Chunks.length (a.Chunks.length - 1) (by omega) (by omega) (by omega) hcondn
    rw [logicalIdx_last a hcp] at h
    exact h
  have hemit := emitIters_run a (a.Chunks.length - 1 - i0) hcp hshape hlenle hn
    (a.NumChunks + 1) m (by omega) (by omega)
  refine ⟨(a.Chunks.getD (logicalIdx a m) default).T0,
    (List.range (a.Chunks.length - 1 - i0 + 1 - m)).map
      (fun j => (a.Chunks.getD (logicalIdx a (m + j)) default).Iter), ?_, ?_⟩
  · unfold AggMetric.Get
    rw [if_neg (by omega), getChunk_eq_some a _ hcp]
    simp only [if_neg (by omega : ¬ ((a.Chunks.getD a.CurrentChunkPos default).T0 +
      a.ChunkSpan ≤ ts))]
    rw [maskedOldest_primary, oldestPos0_eq_logical a hcp,
      getChunk_eq_some a _ (logicalIdx_lt a 0 hlen0)]
    simp only [if_neg (by omega : ¬ (ts + 1 ≤
      (a.Chunks.getD (logicalIdx a 0) default).T0))]
    rw [hadv, hwalk]
    dsimp only
    rw [hemit]
  · refine List.mem_map.mpr ⟨q - m, ?_, ?_⟩
    · exact List.mem_range.mpr (by omega)
    · rw [show m + (q - m) = q from by omega]

/-- C6 (amended): round trip through `Add` and `Get` on a primary query — an
accepted, ingesting `Add` records the sample in a ring chunk owning its span
(`t0 = ts - ts % chunk_span`), and as long as a chunk owning the sample remains
in an invariant-satisfying ring, `Get(ts, ts+1)` answered while the role oracle
reports primary yields an iterator sequence in which some iterator contains
`(ts, val)`.  (The unamended claim over secondaries is refuted by
`C6_counterexample_secondary_masks_round_trip`: the secondary leading-chunk
mask can hide the owning chunk.) -/
theorem C6_round_trip_primary :
    (∀ (a : AggMetric) (ts : Nat) (v : Val) (now : Nat) (pr : Bool),
      AggInv a →
      (a.Chunks.length = 0 ∨
        (ts - ts % a.ChunkSpan = (a.Chunks.getD a.CurrentChunkPos default).T0 ∧
          (a.Chunks.getD a.CurrentChunkPos default).Saved = false ∧
          (a.Chunks.getD a.CurrentChunkPos default).Finished = false) ∨
        (a.Chunks.getD a.CurrentChunkPos default).T0 < ts - ts % a.ChunkSpan) →
      ∃ a', a.Add ts v now pr = some a' ∧ AggInv a' ∧
        ∃ p, p < a'.Chunks.length ∧
          (a'.Chunks.getD p default).T0 = ts - ts % a'.ChunkSpan ∧
          (ts, v) ∈ (a'.Chunks.getD p default).Points) ∧
    (∀ (a : AggMetric) (ts : Nat) (v : Val) (p : Nat),
      AggInv a → p < a.Chunks.length →
      (a.Chunks.getD p default).T0 = ts - ts % a.ChunkSpan →
      (ts, v) ∈ (a.Chunks.getD p default).Points →
      ∃ ms iters it, a.Get ts (ts + 1) true = some (ms, iters) ∧
        it ∈ iters ∧ (ts, v) ∈ it) := by
  constructor
  · intro a ts v now pr hinv hacc
    obtain ⟨a', hadd, hinv', hspan', hne', hT0', hmem'⟩ :=
      Add_accept_current a ts v now pr hinv hacc
    refine ⟨a', hadd, hinv', a'.CurrentChunkPos, ?_, ?_, hmem'⟩
    · exact hinv'.2.1 hne'
    · rw [hT0', hspan']
  · intro a ts v p hinv hp hT0p hmem
    obtain ⟨q, hq, hqe⟩ := logicalIdx_surj a p hp
    have hspan0 : 0 < a.ChunkSpan := hinv.2.2.2.2.1
    have hle : (a.Chunks.getD (logicalIdx a q) default).T0 ≤ ts := by
      rw [hqe, hT0p]
      omega
    have hlt : ts < (a.Chunks.getD (logicalIdx a q) default).T0 + a.ChunkSpan := by
      rw [hqe, hT0p]
      have := Nat.mod_lt ts hspan0
      omega
    obtain ⟨ms, iters, hget, hit⟩ := Get_serves_point a ts q hinv hq hle hlt
    rw [hqe] at hit
    refine ⟨ms, iters, (a.Chunks.getD p default).Iter, hget, hit, ?_⟩
    unfold Chunk.Iter
    exact hmem

/-- Witness for C6: a two-chunk primary buffer whose *non-current* chunk at
`t0 = 60` owns the sample `(100, 1)`; `Get 100 101` on a primary serves it. -/
theorem C6_round_trip_primary_witness :
    AggInv twoChunkState ∧ 0 < twoChunkState.Chunks.length ∧
    (twoChunkState.Chunks.getD 0 default).T0 = 100 - 100 % twoChunkState.ChunkSpan ∧
    ((100 : Nat), (1 : Val)) ∈ (twoChunkState.Chunks.getD 0 default).Points ∧
    (∃ ms iters it, twoChunkState.Get 100 101 true = some (ms, iters) ∧
      it ∈ iters ∧ ((100 : Nat), (1 : Val)) ∈ it) :=
  ⟨by decide, by decide, by decide, by decide,
    C6_round_trip_primary.2 twoChunkState 100 1 0 (by decide) (by decide) (by decide)
      (by decide)⟩

theorem RingSequential_of_span (a : AggMetric) (hspan : 0 < a.ChunkSpan)
    (hseq : SpanSequential a) : RingSequential a := by
  suffices h : ∀ d i, i + d < a.Chunks.length → 0 < d →
      T0at a (logicalIdx a i) < T0at a (logicalIdx a (i + d)) by
    intro j hj i hij
    have h2 := h (j - i) i (by omega) (by omega)
    rw [show i + (j - i) = j from by omega] at h2
    exact h2
  intro d
  induction d with
  | zero =>
    intro i h1 h2
    exact absurd h2 (lt_irrefl 0)
  | succ d ih =>
    intro i h1 h2
    have hstep := hseq (i + d) (by omega)
    cases Nat.eq_zero_or_pos d with
    | inl h0 =>
      subst h0
      have hstep0 := hseq i (by omega)
      show T0at a (logicalIdx a i) < T0at a (logicalIdx a (i + 1))
      omega
    | inr hd =>
      have h3 := ih i (by omega) hd
      show T0at a (logicalIdx a i) < T0at a (logicalIdx a (i + d + 1))
      omega

theorem T0_phys_inj (a : AggMetric) (hord : RingSequential a) (p p' : Nat)
    (hp : p < a.Chunks.length) (hp' : p' < a.Chunks.length)
    (he : (a.Chunks.getD p default).T0 = (a.Chunks.getD p' default).T0) : p = p' := by
  obtain ⟨i, hi, hie⟩ := logicalIdx_surj a p hp
  obtain ⟨j, hj, hje⟩ := logicalIdx_surj a p' hp'
  rcases Nat.lt_trichotomy i j with h | h | h
  · have h5 := hord j hj i h
    unfold T0at at h5
    rw [hie, hje] at h5
    omega
  · rw [← hie, ← hje, h]
  · have h5 := hord i hi j h
    unfold T0at at h5
    rw [hie, hje] at h5
    omega

theorem stepUp_logicalIdx (a : AggMetric) (g : Nat) (hg1 : g + 1 < a.Chunks.length) :
    stepUp (logicalIdx a g) a.Chunks.length = logicalIdx a (g + 1) := by
  unfold stepUp
  rw [wrapStep_eq _ _ (logicalIdx_lt a g (by omega)), logicalIdx_step]

theorem stepDown_logicalIdx (a : AggMetric) (g : Nat) (hg : 1 ≤ g)
    (hlen : a.Chunks.length ≠ 0) :
    stepDown (logicalIdx a g) a.Chunks.length = logicalIdx a (g - 1) := by
  unfold stepDown
  exact logicalIdx_backstep a g hg hlen

theorem oldestPosOf_logical (a : AggMetric) (hcp : a.CurrentChunkPos < a.Chunks.length) :
    oldestPosOf a.CurrentChunkPos a.Chunks.length = logicalIdx a 0 := by
  unfold oldestPosOf logicalIdx
  rw [wrapStep_eq _ _ hcp]

theorem guessOf_big (a : AggMetric) (ago : Nat)
    (hcp : a.CurrentChunkPos < a.Chunks.length) (h : a.Chunks.length - 1 ≤ ago) :
    guessOf a.CurrentChunkPos a.Chunks.length ago = logicalIdx a 0 := by
  unfold guessOf
  rw [if_pos (by omega)]
  exact oldestPosOf_logical a hcp

theorem guessOf_small (a : AggMetric) (ago : Nat)
    (hcp : a.CurrentChunkPos < a.Chunks.length) (h : ago < a.Chunks.length - 1) :
    guessOf a.CurrentChunkPos a.Chunks.length ago =
      logicalIdx a (a.Chunks.length - 1 - ago) := by
  unfold guessOf logicalIdx
  rw [if_neg (by omega)]
  by_cases h2 : a.CurrentChunkPos < ago
  · rw [if_pos h2]
    rw [show a.CurrentChunkPos + 1 + (a.Chunks.length - 1 - ago) =
      a.CurrentChunkPos + a.Chunks.length - ago from by omega]
    rw [Nat.mod_eq_of_lt (by omega)]
  · rw [if_neg h2]
    rw [show a.CurrentChunkPos + 1 + (a.Chunks.length - 1 - ago) =
      (a.CurrentChunkPos - ago) + a.Chunks.length from by omega]
    rw [Nat.add_mod_right, Nat.mod_eq_of_lt (by omega)]

theorem scanNewer_complete (a : AggMetric) (ts q : Nat) (hord : RingSequential a)
    (hcp : a.CurrentChunkPos < a.Chunks.length) (hq1 : q < a.Chunks.length - 1)
    (hmatch : (a.Chunks.getD (logicalIdx a q) default).T0 = ts) :
    ∀ f g, g < q → q - g ≤ f →
      scanNewer a.Chunks (a.Chunks.getD a.CurrentChunkPos default).T0 ts
        (logicalIdx a g) f = some (logicalIdx a q) := by
  intro f
  induction f with
  | zero =>
    intro g h1 h2
    exact absurd h2 (by omega)
  | succ f ih =>
    intro g h1 h2
    have hlen0 : a.Chunks.length ≠ 0 := by omega
    unfold scanNewer
    have hcond : (a.Chunks.getD (logicalIdx a g) default).T0 <
        (a.Chunks.getD a.CurrentChunkPos default).T0 := by
      have h5 := hord (a.Chunks.length - 1) (by omega) g (by omega)
      rw [logicalIdx_last a hcp] at h5
      unfold T0at at h5
      exact h5
    rw [if_pos hcond]
    rw [stepUp_logicalIdx a g (by omega)]
    by_cases hg1 : g + 1 = q
    · rw [hg1, if_pos hmatch]
    · have hg1' : g + 1 < q := by omega
      rw [if_neg (show ¬ ((a.Chunks.getD (logicalIdx a (g + 1)) default).T0 = ts) from by
        intro he
        have h5 := hord q (by omega) (g + 1) hg1'
        unfold T0at at h5
        rw [he, hmatch] at h5
        exact lt_irrefl ts h5)]
      exact ih (g + 1) hg1' (by omega)

theorem scanOlder_complete (a : AggMetric) (ts q : Nat) (hord : RingSequential a)
    (hcp : a.CurrentChunkPos < a.Chunks.length) (hq : q < a.Chunks.length)
    (hmatch : (a.Chunks.getD (logicalIdx a q) default).T0 = ts) :
    ∀ f g, q < g → g ≤ a.Chunks.length - 2 → g - q ≤ f →
      scanOlder a.Chunks (a.Chunks.getD (logicalIdx a 0) default).T0
        (a.Chunks.getD a.CurrentChunkPos default).T0 ts (logicalIdx a g) f =
        some (logicalIdx a q) := by
  intro f
  induction f with
  | zero =>
    intro g h1 h2 h3
    exact absurd h3 (by omega)
  | succ f ih =>
    intro g h1 h2 h3
    have hlen0 : a.Chunks.length ≠ 0 := by omega
    unfold scanOlder
    rw [if_pos (show (a.Chunks.getD (logicalIdx a 0) default).T0 ≤
        (a.Chunks.getD (logicalIdx a g) default).T0 ∧
        (a.Chunks.getD (logicalIdx a g) default).T0 <
          (a.Chunks.getD a.CurrentChunkPos default).T0 from by
      constructor
      · have h5 := T0_logical_mono a hord 0 g (by omega) (by omega)
        unfold T0at at h5
        exact h5
      · have h5 := hord (a.Chunks.length - 1) (by omega) g (by omega)
        rw [logicalIdx_last a hcp] at h5
        unfold T0at at h5
        exact h5)]
    rw [stepDown_logicalIdx a g (by omega) hlen0]
    by_cases hgq : g - 1 = q
    · rw [hgq, if_pos hmatch]
    · have hgq' : q < g - 1 := by omega
      rw [if_neg (show ¬ ((a.Chunks.getD (logicalIdx a (g - 1)) default).T0 = ts) from by
        intro he
        have h5 := hord (g - 1) (by omega) q hgq'
        unfold T0at at h5
        rw [he, hmatch] at h5
        exact lt_irrefl ts h5)]
      exact ih (g - 1) hgq' (by omega) (by omega)

/-- Completeness of the `t0` lookup on rings whose chunks are sequential (at
least one span apart in logical order): when a chunk with the requested `t0`
is in the ring, `getChunkByT0` finds exactly its position. -/
theorem getChunkByT0_complete (a : AggMetric) (ts : Nat)
    (hspan : 0 < a.ChunkSpan) (hseq : SpanSequential a)
    (hcp : a.CurrentChunkPos < a.Chunks.length)
    (p : Nat) (hp : p < a.Chunks.length)
    (hmatch : (a.Chunks.getD p default).T0 = ts) :
    a.getChunkByT0 ts = some p := by
  have hord := RingSequential_of_span a hspan hseq
  have hlen0 : a.Chunks.length ≠ 0 := by omega
  obtain ⟨q, hq, hqe⟩ := logicalIdx_surj a p hp
  have h9 : (a.Chunks.getD (logicalIdx a q) default).T0 = ts := by
    rw [hqe]
    exact hmatch
  unfold AggMetric.getChunkByT0
  rw [if_neg hlen0]
  by_cases hts : ts = (a.Chunks.getD a.CurrentChunkPos default).T0
  · rw [if_pos hts]
    have hpe : p = a.CurrentChunkPos :=
      T0_phys_inj a hord p a.CurrentChunkPos hp hcp (by rw [hmatch, hts])
    rw [hpe]
  · rw [if_neg hts]
    have hmono_top : (a.Chunks.getD p default).T0 ≤
        (a.Chunks.getD a.CurrentChunkPos default).T0 := by
      have h5 := T0_logical_mono a hord q (a.Chunks.length - 1) (by omega) (by omega)
      rw [logicalIdx_last a hcp, hqe] at h5
      unfold T0at at h5
      exact h5
    have hlt : ts < (a.Chunks.getD a.CurrentChunkPos default).T0 := by
      have h6 := hmono_top
      rw [hmatch] at h6
      rcases Nat.lt_or_ge ts (a.Chunks.getD a.CurrentChunkPos default).T0 with h | h
      · exact h
      · omega
    rw [if_neg (by omega : ¬ ((a.Chunks.getD a.CurrentChunkPos default).T0 < ts))]
    have hlen1 : a.Chunks.length ≠ 1 := by
      intro h1
      have hc0 : a.CurrentChunkPos = 0 := by omega
      have hp0 : p = 0 := by omega
      exact hts (by rw [hc0, ← hp0, hmatch])
    rw [if_neg hlen1]
    have hlen2 : 2 ≤ a.Chunks.length := by omega
    have hq1 : q < a.Chunks.length - 1 := by
      rcases Nat.lt_or_ge q (a.Chunks.length - 1) with h | h
      · exact h
      · exfalso
        have hqq : q = a.Chunks.length - 1 := by omega
        rw [hqq, logicalIdx_last a hcp] at h9
        exact hts h9.symm
    by_cases hhit : (a.Chunks.getD (guessOf a.CurrentChunkPos a.Chunks.length
        (((a.Chunks.getD a.CurrentChunkPos default).T0 - ts) / a.ChunkSpan))
        default).T0 = ts
    · rw [if_pos hhit]
      have hgl : guessOf a.CurrentChunkPos a.Chunks.length
          (((a.Chunks.getD a.CurrentChunkPos default).T0 - ts) / a.ChunkSpan) <
          a.Chunks.length := guessOf_lt _ _ _ hcp
      have := T0_phys_inj a hord _ p hgl hp (by rw [hhit, hmatch])
      rw [this]
    · rw [if_neg hhit]
      by_cases hlow : (a.Chunks.getD (guessOf a.CurrentChunkPos a.Chunks.length
          (((a.Chunks.getD a.CurrentChunkPos default).T0 - ts) / a.ChunkSpan))
          default).T0 < ts
      · rw [if_pos hlow]
        rw [← hqe]
        rcases Nat.lt_or_ge (((a.Chunks.getD a.CurrentChunkPos default).T0 - ts) /
            a.ChunkSpan) (a.Chunks.length - 1) with hsmall | hbig
        · have hge := guessOf_small a _ hcp hsmall
          rw [hge] at hlow
          have hglt : a.Chunks.length - 1 -
              (((a.Chunks.getD a.CurrentChunkPos default).T0 - ts) / a.ChunkSpan) < q := by
            rcases Nat.lt_or_ge (a.Chunks.length - 1 -
              (((a.Chunks.getD a.CurrentChunkPos default).T0 - ts) / a.ChunkSpan)) q
              with h | hcon
            · exact h
            · exfalso
              have h10 := T0_logical_mono a hord q (a.Chunks.length - 1 -
                (((a.Chunks.getD a.CurrentChunkPos default).T0 - ts) / a.ChunkSpan))
                hcon (Nat.lt_of_le_of_lt (Nat.sub_le _ _) (by omega))
              unfold T0at at h10
              rw [h9] at h10
              exact absurd (Nat.lt_of_le_of_lt h10 hlow) (lt_irrefl ts)
          rw [hge]
          exact scanNewer_complete a ts q hord hcp hq1 h9 a.Chunks.length
            (a.Chunks.length - 1 -
              (((a.Chunks.getD a.CurrentChunkPos default).T0 - ts) / a.ChunkSpan))
            hglt (Nat.le_trans (Nat.sub_le _ _) (by omega))
        · have hge := guessOf_big a
            (((a.Chunks.getD a.CurrentChunkPos default).T0 - ts) / a.ChunkSpan) hcp hbig
          rw [hge] at hlow
          have hq0 : 0 < q := by
            rcases Nat.eq_zero_or_pos q with h | h
            · exfalso
              rw [← h, h9] at hlow
              exact lt_irrefl ts hlow
            · exact h
          rw [hge]
          exact scanNewer_complete a ts q hord hcp hq1 h9 a.Chunks.length 0 hq0 (by omega)
      · rw [if_neg hlow]
        have hgt2 : ts < (a.Chunks.getD (guessOf a.CurrentChunkPos a.Chunks.length
            (((a.Chunks.getD a.CurrentChunkPos default).T0 - ts) / a.ChunkSpan))
            default).T0 := by omega
        rcases Nat.lt_or_ge (((a.Chunks.getD a.CurrentChunkPos default).T0 - ts) /
            a.ChunkSpan) (a.Chunks.length - 1) with hsmall | hbig
        · have hge := guessOf_small a _ hcp hsmall
          rw [hge] at hgt2
          have hts_low : ts + a.ChunkSpan ≤ (a.Chunks.getD a.CurrentChunkPos default).T0 := by
            have h7 := hseq (a.Chunks.length - 2) (by omega)
            rw [show a.Chunks.length - 2 + 1 = a.Chunks.length - 1 from by omega,
              logicalIdx_last a hcp] at h7
            have h8 := T0_logical_mono a hord q (a.Chunks.length - 2) (by omega) (by omega)
            unfold T0at at h7 h8
            rw [h9] at h8
            omega
          have hago1 : 1 ≤ ((a.Chunks.getD a.CurrentChunkPos default).T0 - ts) /
              a.ChunkSpan := by
            rw [Nat.one_le_div_iff hspan]
            omega
          have hqg : q < a.Chunks.length - 1 -
              (((a.Chunks.getD a.CurrentChunkPos default).T0 - ts) / a.ChunkSpan) := by
            rcases Nat.lt_or_ge q (a.Chunks.length - 1 -
              (((a.Chunks.getD a.CurrentChunkPos default).T0 - ts) / a.ChunkSpan))
              with h | hcon
            · exact h
            · exfalso
              have h10 := T0_logical_mono a hord (a.Chunks.length - 1 -
                (((a.Chunks.getD a.CurrentChunkPos default).T0 - ts) / a.ChunkSpan)) q
                hcon (by omega)
              unfold T0at at h10
              rw [h9] at h10
              exact absurd (Nat.lt_of_le_of_lt h10 hgt2) (lt_irrefl _)
          rw [hge, ← hqe, oldestPosOf_logical a hcp]
          refine scanOlder_complete a ts q hord hcp (by omega) h9 a.Chunks.length
            (a.Chunks.length - 1 -
              (((a.Chunks.getD a.CurrentChunkPos default).T0 - ts) / a.ChunkSpan))
            hqg ?_ (Nat.le_trans (Nat.sub_le _ _)
              (Nat.le_trans (Nat.sub_le _ _) (Nat.sub_le _ _)))
          rw [Nat.sub_sub]
          exact Nat.sub_le_sub_left (Nat.add_le_add_left hago1 1) a.Chunks.length
        · exfalso
          have hge := guessOf_big a
            (((a.Chunks.getD a.CurrentChunkPos default).T0 - ts) / a.ChunkSpan) hcp hbig
          rw [hge] at hgt2
          have h10 := T0_logical_mono a hord 0 q (by omega) (by omega)
          unfold T0at at h10
          rw [h9] at h10
          omega

/-- C8: on a ring with in-bounds position and sequential chunks, whenever a
chunk whose `t0` matches exists, `SyncChunkSaveState(t0)` finds exactly it,
sets its `Saved` flag and changes nothing else (the full record equation pins
every other field and `getD` at every other slot); the lookup only ever
returns matching positions; repeated calls with the same `t0` are idempotent
(the match keeps `Saved = true`); and when no chunk carries that `t0` the
whole state is unchanged. -/
theorem C8_sync_chunk_save_state (a : AggMetric) (ts : Nat)
    (hcp : a.Chunks.length ≠ 0 → a.CurrentChunkPos < a.Chunks.length)
    (hspan : 0 < a.ChunkSpan) (hseq : SpanSequential a) :
    (∀ p, p < a.Chunks.length → (a.Chunks.getD p default).T0 = ts →
      a.getChunkByT0 ts = some p ∧
      a.SyncChunkSaveState ts =
        { a with Chunks := a.Chunks.set p { a.Chunks.getD p default with Saved := true } } ∧
      ((a.SyncChunkSaveState ts).Chunks.getD p default).Saved = true ∧
      (∀ r, r ≠ p → (a.SyncChunkSaveState ts).Chunks.getD r default =
        a.Chunks.getD r default)) ∧
    (∀ p, a.getChunkByT0 ts = some p →
      p < a.Chunks.length ∧ (a.Chunks.getD p default).T0 = ts) ∧
    (a.SyncChunkSaveState ts).SyncChunkSaveState ts = a.SyncChunkSaveState ts ∧
    ((∀ c ∈ a.Chunks, c.T0 ≠ ts) → a.SyncChunkSaveState ts = a) := by
  have sound := getChunkByT0_sound a ts hcp
  refine ⟨?_, sound, ?_, ?_⟩
  · intro p hp hT0
    have hfind : a.getChunkByT0 ts = some p :=
      getChunkByT0_complete a ts hspan hseq (hcp (by omega)) p hp hT0
    have hsync := sync_eq_of_found a ts p hfind
    refine ⟨hfind, hsync, ?_, ?_⟩
    · rw [hsync]
      dsimp only
      rw [getD_set_self _ _ _ hp]
    · intro r hr
      rw [hsync]
      dsimp only
      exact getD_set_ne _ _ _ _ (fun h => hr h.symm)
  · cases hr : a.getChunkByT0 ts with
    | none =>
      have hid := sync_eq_of_none a ts hr
      rw [hid]
      exact hid
    | some p =>
      have hsync := sync_eq_of_found a ts p hr
      by_cases hp : p < a.Chunks.length
      · have hch : (a.SyncChunkSaveState ts).Chunks.map Chunk.T0 =
            a.Chunks.map Chunk.T0 := by
          rw [hsync]
          exact T0map_set_T0_preserving _ _ _ rfl
        have hr2 : (a.SyncChunkSaveState ts).getChunkByT0 ts = some p := by
          rw [getChunkByT0_T0congr a (a.SyncChunkSaveState ts) hch
            (by rw [hsync]) (by rw [hsync]) ts]
          exact hr
        have hsync2 := sync_eq_of_found (a.SyncChunkSaveState ts) ts p hr2
        rw [hsync2]
        conv_lhs => rw [hsync]
        rw [hsync]
        dsimp only
        rw [getD_set_self a.Chunks p _ hp, List.set_set]
      · have hid : a.SyncChunkSaveState ts = a := by
          rw [hsync, set_of_length_le a.Chunks p _ (by omega)]
        rw [hid]
        exact hid
  · intro hno
    cases hr : a.getChunkByT0 ts with
    | none => exact sync_eq_of_none a ts hr
    | some p =>
      obtain ⟨hb, ht⟩ := sound p hr
      have hmem : a.Chunks.getD p default ∈ a.Chunks := by
        have hm := List.getElem_mem (l := a.Chunks) (n := p) hb
        rw [List.getD_eq_getElem?_getD, List.getElem?_eq_getElem hb]
        exact hm
      exact absurd ht (hno _ hmem)

/-- Witness for C8: a two-chunk buffer; acknowledging `t0 = 60` finds the
matching non-current chunk at position 0, marks it saved, and doing it twice
equals doing it once. -/
theorem C8_witness :
    twoChunkState.getChunkByT0 60 = some 0 ∧
    ((twoChunkState.SyncChunkSaveState 60).Chunks.getD 0 default).Saved = true ∧
    ((twoChunkState.SyncChunkSaveState 60).Chunks.getD 1 default) =
      (twoChunkState.Chunks.getD 1 default) ∧
    (twoChunkState.SyncChunkSaveState 60).SyncChunkSaveState 60 =
      twoChunkState.SyncChunkSaveState 60 := by
  have h := C8_sync_chunk_save_state twoChunkState 60 (by decide) (by decide) (by decide)
  obtain ⟨hfind, -, hsaved, hframe⟩ := h.1 0 (by decide) (by decide)
  exact ⟨hfind, hsaved, hframe 1 (by decide), h.2.2.1⟩
